import Mathlib

/-!
Verification of the Device Fingerprint Registry & Presence Tracker of
`bluelogger.py` (BLE visitor logger), as a shallow embedding in Lean 4.

Modelling conventions, fixed once here:

* Epoch timestamps (`time.time()` values) are modelled as `Int` seconds.
  Every comparison and sum the tracker performs on timestamps is exact real
  arithmetic in the source; restricting to integer-valued instants keeps all
  boundary behaviour (`>= LEAVE_TIMEOUT`, `max(0.0, ...)`, per-day bucketing
  by `// 86400`) intact while staying kernel-computable.
* Wall-clock strings (`utc_now_iso()`) are opaque inputs: the functions that
  consume the clock take the pair `(now_iso, now_ts)` as arguments.
* Python `dict` fields are association lists with Python's assignment
  semantics (update in place preserves position, new keys append).
* Python truthiness on the fields this program tests is modelled explicitly
  at each use site: `x or d` on an `Option`/number, `if not enter_ts`, and
  `if address and ...` are spelled out in the corresponding definition.
* `datetime.fromtimestamp(ts, tz=utc).date()` is modelled as the epoch day
  index `ts.fdiv 86400`; the ISO date string the code uses as the bucket key
  is an injective function of that index over `datetime`'s range.
* `hashlib.sha1(raw).hexdigest()[:12]` is a fixed deterministic function of
  the canonical string `raw`; every claim about fingerprints here is an
  equality, so the model exposes `raw` itself as the fingerprint value
  (equal canonical strings give equal digests, and the claims never rely on
  distinctness of digests).
-/

/-! ## Generic helpers -/

/-- Insert `x` into a strictly sorted list, keeping it strictly sorted and
duplicate-free. Together with `sortedSet` this models Python's
`sorted(set(xs))`. -/
def insS [LinearOrder α] (x : α) : List α → List α
  | [] => [x]
  | y :: ys => if x < y then x :: y :: ys else if x = y then y :: ys else y :: insS x ys

/-- `sorted(set(l))`: the strictly sorted list of the distinct elements of `l`. -/
def sortedSet [LinearOrder α] (l : List α) : List α := l.foldr insS []

/-- Python list slicing `l[-n:]`: the last `n` elements. -/
def lastSlice (n : Nat) (l : List α) : List α := l.drop (l.length - n)

/-- Python `d.get(k, dflt)` on an association list (keys are unique in every
dictionary this program builds, so first-match lookup is dictionary lookup). -/
def dGet (d : List (Int × Int)) (k : Int) (dflt : Int) : Int :=
  match d with
  | [] => dflt
  | p :: rest => if p.1 = k then p.2 else dGet rest k dflt

/-- Python `k in d` on an association list. -/
def dHas (d : List (Int × Int)) (k : Int) : Bool :=
  match d with
  | [] => false
  | p :: rest => p.1 = k || dHas rest k

/-- Python `d[k] = v` on an association list: overwrite in place if the key
exists (keeping its position), otherwise append. -/
def dSet (d : List (Int × Int)) (k : Int) (v : Int) : List (Int × Int) :=
  if dHas d k then d.map (fun p => if p.1 = k then (k, v) else p)
  else d ++ [(k, v)]

/-- ASCII lower-casing of one character (Python `str.lower()` restricted to
the ASCII range; every name this program compares against is ASCII). -/
def lowerC (c : Char) : Char :=
  if 'A' ≤ c ∧ c ≤ 'Z' then Char.ofNat (c.toNat + 32) else c

/-- Python `str.lower()` (ASCII model). -/
def lowerS (s : String) : String := String.mk (s.data.map lowerC)

/-- The whitespace characters `str.strip()` removes (ASCII model). -/
def isSpaceC (c : Char) : Bool := c == ' ' || c == '\t' || c == '\n' || c == '\r'

/-- Python `str.strip()` on the character list. -/
def trimL (cs : List Char) : List Char :=
  ((cs.dropWhile (isSpaceC ·)).reverse.dropWhile (isSpaceC ·)).reverse

/-- Python `str.strip()`. -/
def trimS (s : String) : String := String.mk (trimL s.data)

/-! ## Module constants (`bluelogger.py` lines 15-31) -/

def FLUSH_INTERVAL : Int := 10

def MAX_LAST_EVENTS : Nat := 25

def LEAVE_TIMEOUT : Int := 120

def SUPPRESS_NOTIFY_NAMES : List String := ["your_devices_here"]

/-! ## Fingerprint engine (`compute_fingerprint`, lines 43-58) -/

/-- The canonicalized fingerprint material kept on each record. -/
structure FingerprintMaterial where
  manufacturer_ids : List Int
  service_uuids : List String
  service_data_keys : List String
deriving DecidableEq

/-- `compute_fingerprint(mfg_ids, service_uuids, service_data_keys)`.

Each argument may be `None` (`none`), which the source maps to `[]` via
`x or []`; an explicitly empty list takes the same branch. Each list is
deduplicated and sorted (`sorted(set(..))`), joined with `","`, and packed
into the labeled canonical string `raw`. The source then takes
`sha1(raw).hexdigest()[:12]` as the fingerprint; per the modelling note in
the header the model returns `raw` itself in that position, together with
the canonicalized material. -/
def compute_fingerprint (mfg_ids : Option (List Int)) (service_uuids : Option (List String))
    (service_data_keys : Option (List String)) : String × FingerprintMaterial :=
  let mfg_sorted := sortedSet (mfg_ids.getD [])
  let svc_sorted := sortedSet (service_uuids.getD [])
  let sdk_sorted := sortedSet (service_data_keys.getD [])
  let mfg_part := String.intercalate "," (mfg_sorted.map toString)
  let svc_part := String.intercalate "," svc_sorted
  let sdk_part := String.intercalate "," sdk_sorted
  let raw := "mfg=" ++ mfg_part ++ "|svc=" ++ svc_part ++ "|sdk=" ++ sdk_part
  (raw, { manufacturer_ids := mfg_sorted, service_uuids := svc_sorted,
          service_data_keys := sdk_sorted })

/-! ## Classifier (`classify_tags`, lines 88-99) -/

/-- `classify_tags(mfg_ids, service_uuids)`: ordered rule table, returning
the sorted deduplicated tag list and the first tag produced (or
`"unclassified"`). -/
def classify_tags (mfg_ids : List Int) (service_uuids : List String) : List String × String :=
  let tags : List String :=
    (if mfg_ids.contains 76 then ["vendor:apple"] else []) ++
    (if mfg_ids.contains 117 then ["vendor:samsung"] else []) ++
    (if mfg_ids.contains 224 then ["vendor:google"] else []) ++
    (if service_uuids.any (fun u => "0000feaa".data.isPrefixOf (lowerS u).data)
      then ["beacon:eddystone"] else [])
  let primary := tags.headD "unclassified"
  (sortedSet tags, primary)

/-! ## Device records and sightings (`BLEVisitorLogger`) -/

/-- One entry of the bounded `last_events` history. -/
structure SightEvent where
  time : String
  address : Option String
  rssi : Option Int
  source : Option String
deriving DecidableEq

/-- One device record of the registry (`devices[fp]`), with the fields the
presence tracker reads and writes. -/
structure DeviceRec where
  fp : String
  fingerprint : FingerprintMaterial
  tags : List String
  primary_tag : String
  first_seen : String
  last_seen : String
  seen_count : Int
  addresses : List String
  names_seen : List String
  best_rssi : Option Int
  last_rssi : Option Int
  last_events : List SightEvent
  present : Bool
  last_seen_ts : Option Int
  last_left : Option String
  last_enter : Option String
  last_enter_ts : Option Int
  last_left_ts : Option Int
  enter_count : Int
  leave_count : Int
  reenter_count : Int
  presence_by_day : List (Int × Int)
deriving DecidableEq

/-- The record literal seeded for a fingerprint seen for the first time
(`upsert`, lines 220-246). -/
def freshRec (fp : String) (material : FingerprintMaterial) (tags : List String)
    (primary : String) (now_iso : String) : DeviceRec where
  fp := fp
  fingerprint := material
  tags := tags
  primary_tag := primary
  first_seen := now_iso
  last_seen := now_iso
  seen_count := 0
  addresses := []
  names_seen := []
  best_rssi := none
  last_rssi := none
  last_events := []
  present := false
  last_seen_ts := some 0
  last_left := none
  last_enter := none
  last_enter_ts := none
  last_left_ts := none
  enter_count := 0
  leave_count := 0
  reenter_count := 0
  presence_by_day := []

/-- One raw sighting delivered by the scanner (`upsert`'s parameters;
`mfg_ids` stands for `list(mfg_data.keys())`, the only use the source makes
of the manufacturer-data mapping). -/
structure Sighting where
  address : Option String
  name : Option String
  rssi : Option Int
  mfg_ids : List Int
  service_uuids : List String
  service_data_keys : List String
  source : Option String
deriving DecidableEq

/-! ## Notification qualification (lines 153-162) -/

/-- `_name_suppressed(name)`: the trimmed, lower-cased observed name is in
the suppression set (`(name or "").strip().lower() in SUPPRESS_NOTIFY_NAMES`). -/
def name_suppressed (name : Option String) : Bool :=
  SUPPRESS_NOTIFY_NAMES.contains (lowerS (trimS (name.getD "")))

/-- `_qualifies_for_notify(rec, name)`: suppression wins; otherwise a
non-empty trimmed name or a classified primary tag qualifies. -/
def qualifies_for_notify (r : DeviceRec) (name : Option String) : Bool :=
  if name_suppressed name then false
  else (trimS (name.getD "") != "") || (r.primary_tag != "unclassified")

/-! ## Dwell aggregation (`_update_presence_time`, lines 164-179) -/

/-- The per-day bucket key: the UTC calendar day of the epoch second `ts`,
as its epoch-day index (see header note on `fromtimestamp(..).date()`). -/
def epochDay (ts : Int) : Int := Int.fdiv ts 86400

/-- `_update_presence_time(rec, leave_ts)`: called on a present-to-absent
transition. `if not enter_ts: return` makes both a missing (`None`) and a
zero enter timestamp skip the whole update (including the `last_left_ts`
stamp); otherwise the clamped elapsed time is added to the bucket of the
enter day and `last_left_ts` is stamped. -/
def update_presence_time (r : DeviceRec) (leave_ts : Int) : DeviceRec :=
  match r.last_enter_ts with
  | none => r
  | some enter_ts =>
    if enter_ts = 0 then r
    else
      let elapsed := max 0 (leave_ts - enter_ts)
      let day_key := epochDay enter_ts
      let agg := r.presence_by_day
      { r with presence_by_day := dSet agg day_key (dGet agg day_key 0 + elapsed),
               last_left_ts := some leave_ts }

/-! ## Staleness sweep (`mark_left_if_stale`, lines 181-199) -/

/-- The per-record body of the sweep loop: skip records that are absent or
whose `float(rec.get("last_seen_ts") or 0.0)` is `<= 0`; transition the rest
to absent when `now_ts - last_seen_ts >= LEAVE_TIMEOUT`. -/
def mark_left_rec (now_ts : Int) (now_iso : String) (r : DeviceRec) : DeviceRec :=
  if !r.present then r
  else
    let last_seen_ts := (r.last_seen_ts.getD 0)
    if last_seen_ts ≤ 0 then r
    else if now_ts - last_seen_ts ≥ LEAVE_TIMEOUT then
      update_presence_time
        { r with present := false, last_left := some now_iso,
                 leave_count := r.leave_count + 1 }
        now_ts
    else r

/-- Whether the sweep loop body marks this record as left (the condition
under which it sets `self.dirty = True`). -/
def staleTransition (now_ts : Int) (r : DeviceRec) : Bool :=
  r.present && (0 < r.last_seen_ts.getD 0) && (now_ts - r.last_seen_ts.getD 0 ≥ LEAVE_TIMEOUT)

/-- The in-memory tracker state the claims touch: the fingerprint-keyed
device mapping, the registry `meta.updated_utc` stamp, and the dirty flag. -/
structure TrackerState where
  devices : List (String × DeviceRec)
  meta_updated : String
  dirty : Bool
deriving DecidableEq

/-- `mark_left_if_stale()` over the whole registry: apply the loop body to
every record; if any record transitioned (or the state was already dirty)
stamp `meta["updated_utc"]`. -/
def mark_left_if_stale (now_ts : Int) (now_iso : String) (st : TrackerState) : TrackerState :=
  let devices := st.devices.map (fun kv => (kv.1, mark_left_rec now_ts now_iso kv.2))
  let dirty := st.dirty || st.devices.any (fun kv => staleTransition now_ts kv.2)
  { devices := devices, dirty := dirty,
    meta_updated := if dirty then now_iso else st.meta_updated }

/-! ## Upsert (lines 201-298) -/

/-- Lines 248-251 of `upsert`: stamp `last_seen` (wall-clock and epoch),
bump `seen_count`, overwrite `last_rssi` with the sighting's value (also
when that value is `None`). -/
def obsStamp (s : Sighting) (now_iso : String) (now_ts : Int) (r : DeviceRec) : DeviceRec :=
  { r with last_seen := now_iso, last_seen_ts := some now_ts,
           seen_count := r.seen_count + 1, last_rssi := s.rssi }

/-- Lines 253-256: when a signal strength is present, raise `best_rssi` to
it if there was no best yet or the new value is strictly greater. -/
def obsBest (rssi : Option Int) (r : DeviceRec) : DeviceRec :=
  match rssi with
  | none => r
  | some v =>
    match r.best_rssi with
    | none => { r with best_rssi := some v }
    | some best => if v > best then { r with best_rssi := some v } else r

/-- Lines 258-259: append a truthy, unseen address. -/
def obsAddr (address : Option String) (r : DeviceRec) : DeviceRec :=
  match address with
  | none => r
  | some a =>
    if a ≠ "" ∧ a ∉ r.addresses then { r with addresses := r.addresses ++ [a] } else r

/-- Lines 261-262: append a truthy, unseen name. -/
def obsName (name : Option String) (r : DeviceRec) : DeviceRec :=
  match name with
  | none => r
  | some n =>
    if n ≠ "" ∧ n ∉ r.names_seen then { r with names_seen := r.names_seen ++ [n] } else r

/-- Lines 264-267: append the sighting to `last_events` and keep the last
`MAX_LAST_EVENTS` entries. -/
def obsEvents (s : Sighting) (now_iso : String) (r : DeviceRec) : DeviceRec :=
  { r with last_events := lastSlice MAX_LAST_EVENTS (r.last_events ++
      [{ time := now_iso, address := s.address, rssi := s.rssi, source := s.source }]) }

/-- The observation-field updates every upsert applies to the (existing or
freshly created) record for the sighting's fingerprint, one helper per
source statement block (lines 248-267), applied in source order. -/
def observeRec (s : Sighting) (now_iso : String) (now_ts : Int) (r : DeviceRec) : DeviceRec :=
  obsEvents s now_iso
    (obsName s.name (obsAddr s.address (obsBest s.rssi (obsStamp s now_iso now_ts r))))

/-- The presence-transition tail of `upsert` (lines 272-298): on a record
that is not present, bump `enter_count`, bump `reenter_count` when a prior
leave stamp exists, mark present, stamp `last_enter`, and decide whether a
notification is dispatched. Returns the updated record and that decision. -/
def enterRec (name : Option String) (now_iso : String) (now_ts : Int) (r : DeviceRec) :
    DeviceRec × Bool :=
  if !r.present then
    let r := { r with enter_count := r.enter_count + 1 }
    let r := if r.last_left ≠ none then { r with reenter_count := r.reenter_count + 1 } else r
    let r := { r with present := true, last_enter := some now_iso,
                      last_enter_ts := some now_ts }
    (r, qualifies_for_notify r name)
  else (r, false)

/-- The whole per-record effect of one `upsert` on the record at the
sighting's fingerprint. The counter increments in the source go through
`int(x or 0) + 1`; on the integer-valued fields of this model that equals
`x + 1` (the `or 0` branch only rewrites `0` to `0` and guards null values,
which these records never hold). -/
def upsertRec (s : Sighting) (now_iso : String) (now_ts : Int) (r : DeviceRec) :
    DeviceRec × Bool :=
  enterRec s.name now_iso now_ts (observeRec s now_iso now_ts r)

/-- Association-list read of the device mapping (`devices.get(fp)`). -/
def devGet (d : List (String × DeviceRec)) (fp : String) : Option DeviceRec :=
  match d with
  | [] => none
  | p :: rest => if p.1 = fp then some p.2 else devGet rest fp

/-- Python `fp in devices` on the device mapping. -/
def devHas (d : List (String × DeviceRec)) (fp : String) : Bool :=
  match d with
  | [] => false
  | p :: rest => p.1 = fp || devHas rest fp

/-- Association-list write of the device mapping (`devices[fp] = rec`). -/
def devSet (d : List (String × DeviceRec)) (fp : String) (r : DeviceRec) :
    List (String × DeviceRec) :=
  if devHas d fp then d.map (fun p => if p.1 = fp then (fp, r) else p)
  else d ++ [(fp, r)]

/-- `upsert(...)` on the tracker state: route the sighting to the record of
its fingerprint (creating it first if absent), apply the per-record effect,
stamp `meta["updated_utc"]`, set the dirty flag. The second component
reports whether a notification was dispatched. -/
def upsert (st : TrackerState) (s : Sighting) (now_iso : String) (now_ts : Int) :
    TrackerState × Bool :=
  let fpm := compute_fingerprint (some s.mfg_ids) (some s.service_uuids)
    (some s.service_data_keys)
  let fp := fpm.1
  let rec0 :=
    match devGet st.devices fp with
    | some r => r
    | none =>
      let tp := classify_tags s.mfg_ids s.service_uuids
      freshRec fp fpm.2 tp.1 tp.2 now_iso
  let rn := upsertRec s now_iso now_ts rec0
  ({ devices := devSet st.devices fp rn.1, meta_updated := now_iso, dirty := true }, rn.2)

/-- One tracker operation on a single record, for stating properties over
arbitrary interleavings of sightings and sweep ticks. -/
inductive TrackerOp where
  | sight (s : Sighting) (now_iso : String) (now_ts : Int)
  | sweep (now_ts : Int) (now_iso : String)
deriving DecidableEq

/-- Apply one operation to a record. -/
def applyOp (o : TrackerOp) (r : DeviceRec) : DeviceRec :=
  match o with
  | .sight s iso ts => (upsertRec s iso ts r).1
  | .sweep ts iso => mark_left_rec ts iso r

/-- Apply a sequence of operations, oldest first. -/
def applyOps (ops : List TrackerOp) (r : DeviceRec) : DeviceRec :=
  ops.foldl (fun r o => applyOp o r) r

/-! ## JSON documents (`atomic_write_json` / `load_registry`, lines 61-85)

The registry file is one JSON document. `JVal` is the value universe the
program persists: numbers are the decimal literals `m / 10 ^ e` (Python
serializes an `int` as its digits and a `float` via its shortest-repr
decimal, which `json.loads` reads back exactly, so exact decimals model the
round trip; exponent-form output only appears for magnitudes no registry
field reaches). Strings hold Unicode scalar values (Python strings may also
hold lone surrogates, which no Lean string can represent; the parser
rejects the `\uXXXX` spellings of those). -/
inductive JVal where
  | jnull
  | jbool (b : Bool)
  | jnum (m : Int) (e : Nat)
  | jstr (s : String)
  | jarr (xs : List JVal)
  | jobj (ms : List (String × JVal))

/-- The opening brace character (spelled via its code point). -/
def braceL : Char := Char.ofNat 123

/-- The closing brace character. -/
def braceR : Char := Char.ofNat 125

/-- Decimal digit character of `d < 10`. -/
def digitChar (d : Nat) : Char := Char.ofNat (48 + d)

/-- Digit characters of `n`, most significant first, prepended to `acc`;
`fuel` only bounds the recursion and `n + 1` is always enough. -/
def natDigsAux : Nat → Nat → List Char → List Char
  | 0, _, acc => acc
  | fuel + 1, n, acc =>
    if n < 10 then digitChar n :: acc
    else natDigsAux fuel (n / 10) (digitChar (n % 10) :: acc)

/-- Decimal digit characters of `n`, no leading zeros (`"0"` for zero). -/
def natDigs (n : Nat) : List Char := natDigsAux (n + 1) n []

/-- Left-pad a digit string with zeros to at least `k` characters. -/
def padLeft (k : Nat) (ds : List Char) : List Char :=
  List.replicate (k - ds.length) '0' ++ ds

/-- The characters Python's serializer writes for the decimal `m / 10^e`:
the digits of `|m|` padded to at least `e + 1` characters, a decimal point
before the last `e` of them when `e > 0`, and a leading sign for `m < 0`.
`e = 0` renders an `int`, `e > 0` a `float` in its repr form. -/
def numChars (m : Int) (e : Nat) : List Char :=
  let ds := padLeft (e + 1) (natDigs m.natAbs)
  (if m < 0 then ['-'] else []) ++
    (if e = 0 then ds else ds.take (ds.length - e) ++ '.' :: ds.drop (ds.length - e))

/-- Lower-case hexadecimal digit character of `d < 16`. -/
def hexDigitChar (d : Nat) : Char := Char.ofNat (if d < 10 then 48 + d else 87 + d)

/-- One character as `json.dump(ensure_ascii=False)` writes it: `"`,
backslash and the control characters are escaped (the five short escapes,
`\u00XX` for the rest), everything else is written literally. -/
def escC (c : Char) : List Char :=
  if c = '"' then ['\\', '"']
  else if c = '\\' then ['\\', '\\']
  else if c = '\n' then ['\\', 'n']
  else if c = '\r' then ['\\', 'r']
  else if c = '\t' then ['\\', 't']
  else if c.toNat = 8 then ['\\', 'b']
  else if c.toNat = 12 then ['\\', 'f']
  else if c.toNat < 32 then
    ['\\', 'u', '0', '0', hexDigitChar (c.toNat / 16), hexDigitChar (c.toNat % 16)]
  else [c]

/-- Escape every character of a string body. -/
def escAll : List Char → List Char
  | [] => []
  | c :: cs => escC c ++ escAll cs

/-- A JSON string token: quote, escaped body, quote. -/
def strChars (s : String) : List Char := '"' :: (escAll s.data ++ ['"'])

/-- The `indent=2` prefix at nesting depth `d`. -/
def indentChars (d : Nat) : List Char := List.replicate (2 * d) ' '

/-- Key order of Python's `sort_keys=True`: code-point lexicographic. -/
def keyLt : List Char → List Char → Bool
  | [], [] => false
  | [], _ :: _ => true
  | _ :: _, [] => false
  | x :: xs, y :: ys => if x < y then true else if x = y then keyLt xs ys else false

/-- Insert one member into a key-sorted member list (after equal keys). -/
def insMember (kv : String × JVal) : List (String × JVal) → List (String × JVal)
  | [] => [kv]
  | p :: ps => if keyLt kv.1.data p.1.data then kv :: p :: ps else p :: insMember kv ps

/-- `sorted(d.items())` of `sort_keys=True` (keys are unique in a dict, so
any stable comparison sort produces this list). -/
def sortMembers (ms : List (String × JVal)) : List (String × JVal) := ms.foldr insMember []

mutual
/-- Recursively sort every object's members by key. Serializing this
normal form in order is exactly serializing the original with
`sort_keys=True` at every level. -/
def canonJ : JVal → JVal
  | .jnull => .jnull
  | .jbool b => .jbool b
  | .jnum m e => .jnum m e
  | .jstr s => .jstr s
  | .jarr xs => .jarr (canonL xs)
  | .jobj ms => .jobj (sortMembers (canonM ms))
def canonL : List JVal → List JVal
  | [] => []
  | x :: xs => canonJ x :: canonL xs
def canonM : List (String × JVal) → List (String × JVal)
  | [] => []
  | (k, v) :: ms => (k, canonJ v) :: canonM ms
end

mutual
/-- Serialize a (canonicalized) value at depth `d`, exactly as
`json.dump(data, f, ensure_ascii=False, indent=2, sort_keys=True)` lays it
out: children on their own lines indented two more spaces, `", "`-free
item separators (`,` then newline), `": "` after keys, empty containers
inline. -/
def emitJ (d : Nat) : JVal → List Char
  | .jnull => ['n', 'u', 'l', 'l']
  | .jbool true => ['t', 'r', 'u', 'e']
  | .jbool false => ['f', 'a', 'l', 's', 'e']
  | .jnum m e => numChars m e
  | .jstr s => strChars s
  | .jarr [] => ['[', ']']
  | .jarr (x :: xs) =>
    '[' :: '\n' :: (indentChars (d + 1) ++ emitJ (d + 1) x ++ emitItems (d + 1) xs
      ++ '\n' :: (indentChars d ++ [']']))
  | .jobj [] => [braceL, braceR]
  | .jobj (p :: ps) =>
    braceL :: '\n' :: (indentChars (d + 1) ++ strChars p.1 ++ ':' :: ' ' :: emitJ (d + 1) p.2
      ++ emitEntries (d + 1) ps ++ '\n' :: (indentChars d ++ [braceR]))
def emitItems (d : Nat) : List JVal → List Char
  | [] => []
  | x :: xs => ',' :: '\n' :: (indentChars d ++ emitJ d x ++ emitItems d xs)
def emitEntries (d : Nat) : List (String × JVal) → List Char
  | [] => []
  | p :: ps =>
    ',' :: '\n' :: (indentChars d ++ strChars p.1 ++ ':' :: ' ' :: emitJ d p.2
      ++ emitEntries d ps)
end

/-- The text `atomic_write_json(path, data)` leaves at the target path:
`json.dump` with sorted keys and two-space indent (modelled by serializing
the canonical form), made visible atomically by the temp-file write,
`fsync` and `os.replace` — the claims here concern the content. -/
def atomic_write_json (j : JVal) : String := String.mk (emitJ 0 (canonJ j))

/-! ### The parser (`json.loads`) -/

/-- JSON whitespace characters (also what `str.strip()` removes here). -/
def skipWs : List Char → List Char
  | c :: cs => if isSpaceC c then skipWs cs else c :: cs
  | [] => []

/-- ASCII decimal digit test. -/
def isDigitC (c : Char) : Bool := 48 ≤ c.toNat && c.toNat ≤ 57

/-- Split off the longest leading digit run. -/
def grabDigits : List Char → List Char × List Char
  | [] => ([], [])
  | c :: cs =>
    if isDigitC c then
      let p := grabDigits cs
      (c :: p.1, p.2)
    else ([], c :: cs)

/-- The number a digit string denotes. -/
def digsVal (ds : List Char) : Nat :=
  ds.foldl (fun a c => a * 10 + (c.toNat - 48)) 0

/-- The JSON grammar forbids leading zeros in the integer part. -/
def leadZeroOk : List Char → Bool
  | c :: _ :: _ => !(c = '0')
  | _ => true

/-- Assemble the parsed sign, integer digits, fraction digits and exponent
into the decimal `(mantissa, fractional-length)` pair, normalizing the
exponent into it. -/
def mkNum (neg : Bool) (ids fds : List Char) (x : Int) : Int × Nat :=
  let M : Nat := digsVal (ids ++ fds)
  let sgn : Int := if neg then -1 else 1
  let scale : Int := x - fds.length
  if 0 ≤ scale then (sgn * M * 10 ^ scale.toNat, 0)
  else (sgn * M, ((fds.length : Int) - x).toNat)

/-- Parse the exponent digits after `e`/`E` and an optional sign. -/
def parseExpDigits (neg : Bool) (ids fds : List Char) (sgn : Int) (cs : List Char) :
    Option ((Int × Nat) × List Char) :=
  let p := grabDigits cs
  if p.1 = [] then none else some (mkNum neg ids fds (sgn * digsVal p.1), p.2)

/-- Parse the optional exponent part of a number. -/
def parseNumTail (neg : Bool) (ids fds : List Char) (cs : List Char) :
    Option ((Int × Nat) × List Char) :=
  match cs with
  | c :: r =>
    if c = 'e' ∨ c = 'E' then
      match r with
      | '+' :: r1 => parseExpDigits neg ids fds 1 r1
      | '-' :: r1 => parseExpDigits neg ids fds (-1) r1
      | r1 => parseExpDigits neg ids fds 1 r1
    else some (mkNum neg ids fds 0, cs)
  | [] => some (mkNum neg ids fds 0, [])

/-- Parse the body of a JSON number after the optional sign
(`int frac? exp?` per RFC 8259). -/
def parseNumBody (neg : Bool) (cs : List Char) : Option ((Int × Nat) × List Char) :=
  let p := grabDigits cs
  if p.1 = [] then none
  else if !leadZeroOk p.1 then none
  else
    match p.2 with
    | c :: r =>
      if c = '.' then
        let q := grabDigits r
        if q.1 = [] then none else parseNumTail neg p.1 q.1 q.2
      else parseNumTail neg p.1 [] (c :: r)
    | [] => parseNumTail neg p.1 [] []

/-- Parse one JSON number (`-? int frac? exp?`). -/
def parseNumber (cs : List Char) : Option ((Int × Nat) × List Char) :=
  match cs with
  | c :: r => if c = '-' then parseNumBody true r else parseNumBody false (c :: r)
  | [] => parseNumBody false []

/-- Hexadecimal digit value. -/
def hexVal (c : Char) : Option Nat :=
  if 48 ≤ c.toNat ∧ c.toNat ≤ 57 then some (c.toNat - 48)
  else if 97 ≤ c.toNat ∧ c.toNat ≤ 102 then some (c.toNat - 87)
  else if 65 ≤ c.toNat ∧ c.toNat ≤ 70 then some (c.toNat - 55)
  else none

/-- Four hexadecimal digits. -/
def hex4 (a b c d : Char) : Option Nat :=
  match hexVal a, hexVal b, hexVal c, hexVal d with
  | some va, some vb, some vc, some vd => some (((va * 16 + vb) * 16 + vc) * 16 + vd)
  | _, _, _, _ => none

/-- Decode a one-letter escape sequence (`\"`, `\\`, `\/`, `\n`, `\r`,
`\t`, `\b`, `\f`); anything else is rejected, as `json.loads` does in
strict mode. -/
def escSimple (e : Char) : Option Char :=
  if e = '"' then some '"'
  else if e = '\\' then some '\\'
  else if e = '/' then some '/'
  else if e = 'n' then some '\n'
  else if e = 'r' then some '\r'
  else if e = 't' then some '\t'
  else if e = 'b' then some (Char.ofNat 8)
  else if e = 'f' then some (Char.ofNat 12)
  else none

/-- Decode a `\uXXXX` escape, the characters after `\u`: four hex digits,
with a high surrogate requiring an immediately following low-surrogate
escape (combined into the supplementary-plane scalar) and a lone surrogate
rejected — the one spelling Python would keep as an unrepresentable
lone-surrogate character. -/
def escU (r1 : List Char) : Option (Char × List Char) :=
  match r1 with
  | a :: b :: c2 :: d :: r2 =>
    match hex4 a b c2 d with
    | none => none
    | some n =>
      if n < 55296 ∨ 57344 ≤ n then some (Char.ofNat n, r2)
      else if n < 56320 then
        match r2 with
        | e2 :: u2 :: a2 :: b2 :: c3 :: d2 :: r3 =>
          if e2 = '\\' ∧ u2 = 'u' then
            match hex4 a2 b2 c3 d2 with
            | some n2 =>
              if 56320 ≤ n2 ∧ n2 < 57344 then
                some (Char.ofNat (65536 + (n - 55296) * 1024 + (n2 - 56320)), r3)
              else none
            | none => none
          else none
        | _ => none
      else none
  | _ => none

/-- Decode one escape sequence, the characters after the backslash. -/
def escSeq : List Char → Option (Char × List Char)
  | [] => none
  | e :: r1 =>
    if e = 'u' then escU r1
    else
      match escSimple e with
      | some ch => some (ch, r1)
      | none => none

/-- Parse a string body after the opening quote, strict mode: raw control
characters are rejected and escapes are decoded by `escSeq`. Each decoded
character costs one unit of `fuel`, so any fuel beyond the input length is
enough; callers pass the remaining input length plus one. -/
def parseStrBody : Nat → List Char → List Char → Option (String × List Char)
  | 0, _, _ => none
  | _ + 1, _, [] => none
  | fuel + 1, acc, c :: r =>
    if c = '"' then some (String.mk acc.reverse, r)
    else if c = '\\' then
      match escSeq r with
      | some (ch, r1) => parseStrBody fuel (ch :: acc) r1
      | none => none
    else if c.toNat < 32 then none
    else parseStrBody fuel (c :: acc) r

/-- Python dict assignment on a member list (overwrite in place, else
append); `json.loads` builds each object this way, so a duplicated key
keeps its first position with its last value. -/
def jinsert (ms : List (String × JVal)) (k : String) (v : JVal) : List (String × JVal) :=
  if ms.any (fun p => p.1 == k) then ms.map (fun p => if p.1 == k then (k, v) else p)
  else ms ++ [(k, v)]

/-- Fold a parsed member list into dict form. -/
def dictify (ps : List (String × JVal)) : List (String × JVal) :=
  ps.foldl (fun d p => jinsert d p.1 p.2) []

mutual
/-- The recursive-descent value parser of `json.loads`. `fuel` only bounds
the recursion; the caller passes more than the input length. (`NaN` and
`Infinity`, accepted by Python, denote no decimal and are omitted.) -/
def parseVal : Nat → List Char → Option (JVal × List Char)
  | 0, _ => none
  | fuel + 1, cs =>
    match skipWs cs with
    | [] => none
    | c :: r =>
      if c = 'n' then
        match r with
        | 'u' :: 'l' :: 'l' :: r2 => some (.jnull, r2)
        | _ => none
      else if c = 't' then
        match r with
        | 'r' :: 'u' :: 'e' :: r2 => some (.jbool true, r2)
        | _ => none
      else if c = 'f' then
        match r with
        | 'a' :: 'l' :: 's' :: 'e' :: r2 => some (.jbool false, r2)
        | _ => none
      else if c = '"' then
        match parseStrBody (r.length + 1) [] r with
        | some (s, r1) => some (.jstr s, r1)
        | none => none
      else if c = '[' then
        match skipWs r with
        | [] => none
        | c2 :: r1 =>
          if c2 = ']' then some (.jarr [], r1)
          else
            match parseItems fuel (c2 :: r1) with
            | some (xs, r2) => some (.jarr xs, r2)
            | none => none
      else if c = braceL then
        match skipWs r with
        | c2 :: r1 =>
          if c2 = braceR then some (.jobj [], r1)
          else
            match parseEntries fuel (c2 :: r1) with
            | some (ms, r2) => some (.jobj (dictify ms), r2)
            | none => none
        | [] => none
      else if c = '-' ∨ isDigitC c then
        match parseNumber (c :: r) with
        | some (me, r1) => some (.jnum me.1 me.2, r1)
        | none => none
      else none
def parseItems : Nat → List Char → Option (List JVal × List Char)
  | 0, _ => none
  | fuel + 1, cs =>
    match parseVal fuel cs with
    | none => none
    | some (v, r) =>
      match skipWs r with
      | c :: r1 =>
        if c = ',' then
          match parseItems fuel r1 with
          | some (vs, r2) => some (v :: vs, r2)
          | none => none
        else if c = ']' then some ([v], r1)
        else none
      | [] => none
def parseEntries : Nat → List Char → Option (List (String × JVal) × List Char)
  | 0, _ => none
  | fuel + 1, cs =>
    match skipWs cs with
    | c0 :: r =>
      if c0 = '"' then
        match parseStrBody (r.length + 1) [] r with
        | none => none
        | some (k, r1) =>
          match skipWs r1 with
          | c1 :: r2 =>
            if c1 = ':' then
              match parseVal fuel r2 with
              | none => none
              | some (v, r3) =>
                match skipWs r3 with
                | c :: r4 =>
                  if c = ',' then
                    match parseEntries fuel r4 with
                    | some (ms, r5) => some ((k, v) :: ms, r5)
                    | none => none
                  else if c = braceR then some ([(k, v)], r4)
                  else none
                | [] => none
            else none
          | [] => none
      else none
    | [] => none
end

/-- Whether a text is empty or whitespace-only (`if not raw` after the
`strip()` in `load_registry`). -/
def wsOnly (cs : List Char) : Bool := cs.all isSpaceC

/-- `json.loads(s)`: parse one value, allow only trailing whitespace. -/
def json_loads (s : String) : Option JVal :=
  match parseVal (s.data.length + 1) s.data with
  | some (v, rest) => if wsOnly rest then some v else none
  | none => none

/-- The freshly initialized registry `load_registry` substitutes on every
recovery path. -/
def fresh_registry (now_iso : String) : JVal :=
  .jobj [("meta", .jobj [("created_utc", .jstr now_iso)]), ("devices", .jobj [])]

/-- Python `data.setdefault(k, v)`. -/
def jsetdefault (ms : List (String × JVal)) (k : String) (v : JVal) :
    List (String × JVal) :=
  if ms.any (fun p => p.1 == k) then ms else ms ++ [(k, v)]

/-- `load_registry(path)`. An absent file is `none`; an unreadable file
takes the same `except` branch as a parse failure. The source strips the
text first — the parser's surrounding-whitespace handling absorbs that, and
the `if not raw` guard is the `wsOnly` test (a character Python strips but
JSON rejects fails the parse either way, landing in the same fresh
registry). A parsed non-object and a parse error also yield the fresh
registry; a parsed object gets `meta`/`devices` seeded by `setdefault`. -/
def load_registry (file : Option String) (now_iso : String) : JVal :=
  match file with
  | none => fresh_registry now_iso
  | some s =>
    if wsOnly s.data then fresh_registry now_iso
    else
      match json_loads s with
      | some (.jobj ms) =>
        .jobj (jsetdefault (jsetdefault ms "meta" (.jobj [])) "devices" (.jobj []))
      | some _ => fresh_registry now_iso
      | none => fresh_registry now_iso

/-- Whether a value is a JSON object (`isinstance(data, dict)`). -/
def jIsObj : JVal → Bool
  | .jobj _ => true
  | _ => false

/-! ### Deep equality and well-formedness of documents -/

mutual
/-- Structural equality of values (with member lists compared in order). -/
def jBEq : JVal → JVal → Bool
  | .jnull, .jnull => true
  | .jbool a, .jbool b => a == b
  | .jnum m e, .jnum m2 e2 => m == m2 && e == e2
  | .jstr a, .jstr b => a == b
  | .jarr xs, .jarr ys => jBEqL xs ys
  | .jobj a, .jobj b => jBEqM a b
  | _, _ => false
def jBEqL : List JVal → List JVal → Bool
  | [], [] => true
  | x :: xs, y :: ys => jBEq x y && jBEqL xs ys
  | _, _ => false
def jBEqM : List (String × JVal) → List (String × JVal) → Bool
  | [], [] => true
  | p :: ps, q :: qs => p.1 == q.1 && jBEq p.2 q.2 && jBEqM ps qs
  | _, _ => false
end

/-- Deep equality of documents in the dictionary sense: equal after
recursively sorting every object's members (Python `==` on parsed
documents ignores key order; on unique-keyed objects this is the same
relation). -/
def jeqv (x y : JVal) : Bool := jBEq (canonJ x) (canonJ y)

/-- No duplicate keys in one member list. -/
def keysNodup : List (String × JVal) → Bool
  | [] => true
  | p :: ps => !(ps.any (fun q => q.1 == p.1)) && keysNodup ps

mutual
/-- A well-formed document: every object has unique keys, recursively.
Every dictionary Python holds in memory satisfies this by construction. -/
def jWF : JVal → Bool
  | .jnull => true
  | .jbool _ => true
  | .jnum _ _ => true
  | .jstr _ => true
  | .jarr xs => jWFL xs
  | .jobj ms => keysNodup ms && jWFM ms
def jWFL : List JVal → Bool
  | [] => true
  | x :: xs => jWF x && jWFL xs
def jWFM : List (String × JVal) → Bool
  | [] => true
  | (_, v) :: ms => jWF v && jWFM ms
end

/-- Member lists in strictly increasing key order. -/
def keysSorted : List (String × JVal) → Bool
  | [] => true
  | [_] => true
  | p :: q :: ps => keyLt p.1.data q.1.data && keysSorted (q :: ps)

mutual
/-- The canonical (emission-order) forms: every object strictly key-sorted,
recursively. -/
def jCanonical : JVal → Bool
  | .jnull => true
  | .jbool _ => true
  | .jnum _ _ => true
  | .jstr _ => true
  | .jarr xs => jCanonicalL xs
  | .jobj ms => keysSorted ms && jCanonicalM ms
def jCanonicalL : List JVal → Bool
  | [] => true
  | x :: xs => jCanonical x && jCanonicalL xs
def jCanonicalM : List (String × JVal) → Bool
  | [] => true
  | (_, v) :: ms => jCanonical v && jCanonicalM ms
end

mutual
/-- Node count, the fuel measure of the parser lemmas. -/
def jsize : JVal → Nat
  | .jnull => 1
  | .jbool _ => 1
  | .jnum _ _ => 1
  | .jstr _ => 1
  | .jarr xs => 1 + jsizeL xs
  | .jobj ms => 1 + jsizeM ms
def jsizeL : List JVal → Nat
  | [] => 0
  | x :: xs => 1 + jsize x + jsizeL xs
def jsizeM : List (String × JVal) → Nat
  | [] => 0
  | (_, v) :: ms => 1 + jsize v + jsizeM ms
end

/-- Whether a remainder begins with a character that ends a value in
emitted output (a separator newline or comma) or is the end of input. -/
def valStop : List Char → Bool
  | [] => true
  | c :: _ => c = '\n' || c = ','

/-- `k in data` on a document (`False` on a non-object). -/
def jHasKey : JVal → String → Bool
  | .jobj ms, k => ms.any (fun p => p.1 == k)
  | _, _ => false

/-- A concrete registry document exercising every value shape the program
persists, used as the round-trip witness input. -/
def sampleReg : JVal :=
  .jobj [("devices", .jobj [("ab12", .jobj [("name", .jstr "Tile x"),
    ("seen_count", .jnum 3 0), ("last_rssi", .jnull), ("avg_rssi", .jnum (-425) 1),
    ("tags", .jarr [.jstr "apple", .jbool true]),
    ("esc", .jstr (String.mk ['a', '\n', '\t', Char.ofNat 7, '"', '\\']))])]),
    ("meta", .jobj [("created_utc", .jstr "2024-01-01T00:00:00+00:00")])]

/-- A sample record for concrete instantiations: the freshly created record
of an empty-signature fingerprint. -/
def baseRec : DeviceRec :=
  freshRec "mfg=|svc=|sdk=" ⟨[], [], []⟩ [] "unclassified" "2024-01-01T00:00:00Z"

/-- Proof-level specification of the digit characters of `n` (most
significant first, `"0"` for zero); `natDigs` computes it. -/
def digsOf (n : Nat) : List Char :=
  if n < 10 then [digitChar n] else digsOf (n / 10) ++ [digitChar (n % 10)]
termination_by n
decreasing_by exact Nat.div_lt_self (by omega) (by omega)

/-- Whether a remainder cannot extend a digit run. -/
def notDigitHead : List Char → Bool
  | [] => true
  | c :: _ => !isDigitC c

/-- Whether a remainder cannot extend a rendered number (every character
that follows a value in emitted output qualifies: `,`, `]`, a closing
brace, a newline, or the end of input). -/
def numDelim : List Char → Bool
  | [] => true
  | c :: _ => !(isDigitC c || c = '.' || c = 'e' || c = 'E')

/-! ## Lemmas about `sortedSet` -/

theorem mem_insS [LinearOrder α] (a x : α) : ∀ l : List α, a ∈ insS x l ↔ a = x ∨ a ∈ l
  | [] => by simp [insS]
  | y :: ys => by
    simp only [insS]
    split
    · simp [List.mem_cons]
    · split
      · rename_i hxy; subst hxy; simp only [List.mem_cons]; tauto
      · simp only [List.mem_cons, mem_insS a x ys]; tauto

theorem sorted_insS [LinearOrder α] (x : α) :
    ∀ l : List α, l.Sorted (· < ·) → (insS x l).Sorted (· < ·)
  | [], _ => by simp [insS]
  | y :: ys, h => by
    rw [List.sorted_cons] at h
    obtain ⟨hy, hys⟩ := h
    simp only [insS]
    split
    · next hlt =>
      rw [List.sorted_cons]
      refine ⟨?_, List.sorted_cons.mpr ⟨hy, hys⟩⟩
      intro b hb
      rcases List.mem_cons.mp hb with rfl | hb'
      · exact hlt
      · exact lt_trans hlt (hy b hb')
    · split
      · exact List.sorted_cons.mpr ⟨hy, hys⟩
      · next hnlt hne =>
        have hyx : y < x := lt_of_le_of_ne (le_of_not_lt hnlt) (Ne.symm hne)
        rw [List.sorted_cons]
        refine ⟨?_, sorted_insS x ys hys⟩
        intro b hb
        rcases (mem_insS b x ys).mp hb with rfl | hb'
        · exact hyx
        · exact hy b hb'

theorem ssorted_ext [LinearOrder α] : ∀ {l m : List α}, l.Sorted (· < ·) → m.Sorted (· < ·) →
    (∀ x, x ∈ l ↔ x ∈ m) → l = m
  | [], [], _, _, _ => rfl
  | [], y :: ys, _, _, hmem =>
    absurd ((hmem y).mpr (List.mem_cons_self y ys)) (List.not_mem_nil y)
  | x :: xs, [], _, _, hmem =>
    absurd ((hmem x).mp (List.mem_cons_self x xs)) (List.not_mem_nil x)
  | x :: xs, y :: ys, hl, hm, hmem => by
    rw [List.sorted_cons] at hl hm
    have hxy : x = y := by
      rcases List.mem_cons.mp ((hmem x).mp (List.mem_cons_self x xs)) with h | h
      · exact h
      · have h1 : y < x := hm.1 x h
        rcases List.mem_cons.mp ((hmem y).mpr (List.mem_cons_self y ys)) with h2 | h2
        · exact h2.symm
        · exact absurd (lt_trans h1 (hl.1 y h2)) (lt_irrefl y)
    subst hxy
    have htl : xs = ys := by
      apply ssorted_ext hl.2 hm.2
      intro z
      constructor
      · intro hz
        rcases List.mem_cons.mp ((hmem z).mp (List.mem_cons_of_mem x hz)) with rfl | h
        · exact absurd (hl.1 z hz) (lt_irrefl z)
        · exact h
      · intro hz
        rcases List.mem_cons.mp ((hmem z).mpr (List.mem_cons_of_mem x hz)) with rfl | h
        · exact absurd (hm.1 z hz) (lt_irrefl z)
        · exact h
    rw [htl]

theorem sorted_sortedSet [LinearOrder α] (l : List α) : (sortedSet l).Sorted (· < ·) := by
  induction l with
  | nil => simp [sortedSet]
  | cons x xs ih => exact sorted_insS x _ ih

theorem mem_sortedSet [LinearOrder α] (a : α) (l : List α) : a ∈ sortedSet l ↔ a ∈ l := by
  induction l with
  | nil => simp [sortedSet]
  | cons x xs ih =>
    show a ∈ insS x (sortedSet xs) ↔ _
    rw [mem_insS, ih]
    simp [List.mem_cons]

theorem sortedSet_eq_of_toFinset_eq [DecidableEq α] [LinearOrder α] {l m : List α}
    (h : l.toFinset = m.toFinset) : sortedSet l = sortedSet m := by
  apply ssorted_ext (sorted_sortedSet l) (sorted_sortedSet m)
  intro x
  rw [mem_sortedSet, mem_sortedSet, ← List.mem_toFinset, h, List.mem_toFinset]

/-! ## Claim C1 -/

/-- C1: `compute_fingerprint` is a pure function of the sets of its three
inputs — any two input triples whose manufacturer-id, service-UUID and
service-data-key lists have the same elements (in particular permutations or
duplications of one another, or an absent `None` versus an empty list) give
the same fingerprint and material. -/
theorem compute_fingerprint_pure_in_sets
    (m₁ m₂ : Option (List Int)) (s₁ s₂ k₁ k₂ : Option (List String))
    (hm : (m₁.getD []).toFinset = (m₂.getD []).toFinset)
    (hs : (s₁.getD []).toFinset = (s₂.getD []).toFinset)
    (hk : (k₁.getD []).toFinset = (k₂.getD []).toFinset) :
    compute_fingerprint m₁ s₁ k₁ = compute_fingerprint m₂ s₂ k₂ := by
  simp only [compute_fingerprint, sortedSet_eq_of_toFinset_eq hm,
    sortedSet_eq_of_toFinset_eq hs, sortedSet_eq_of_toFinset_eq hk]

/-- Witness for C1 at a permuted, duplicated and absent-versus-empty triple. -/
theorem compute_fingerprint_pure_in_sets_witness :
    (([2, 1, 1] : List Int).toFinset = ([1, 2] : List Int).toFinset) ∧
    compute_fingerprint (some [2, 1, 1]) (some ["b", "a"]) none
      = compute_fingerprint (some [1, 2]) (some ["a", "b", "a"]) (some []) :=
  ⟨by decide,
    compute_fingerprint_pure_in_sets (some [2, 1, 1]) (some [1, 2]) (some ["b", "a"])
      (some ["a", "b", "a"]) none (some []) (by decide) (by decide) (by decide)⟩

/-! ## Claim C10 -/

/-- C10: a Present record whose `last_seen_ts` is missing (`None`, read back
as `0.0`), zero, or negative is never transitioned by the staleness sweep,
whatever the current time: the sweep body returns it unchanged. -/
theorem stale_sweep_skips_unseen (now_ts : Int) (now_iso : String) (r : DeviceRec)
    (hp : r.present = true) (hts : r.last_seen_ts.getD 0 ≤ 0) :
    mark_left_rec now_ts now_iso r = r := by
  simp [mark_left_rec, hp, hts]

/-- Witness for C10: a Present record with a missing last-seen epoch
survives a sweep far in the future untouched. -/
theorem stale_sweep_skips_unseen_witness :
    ({ baseRec with present := true, last_seen_ts := none } : DeviceRec).present = true ∧
    mark_left_rec 1000000000 "2024-01-01T00:00:00Z"
        { baseRec with present := true, last_seen_ts := none }
      = { baseRec with present := true, last_seen_ts := none } :=
  ⟨by decide,
    stale_sweep_skips_unseen 1000000000 "2024-01-01T00:00:00Z"
      { baseRec with present := true, last_seen_ts := none } (by decide) (by decide)⟩



/-! ## Frame lemmas for the upsert pipeline -/

theorem obsBest_shape (rssi : Option Int) (r : DeviceRec) :
    ∃ b, obsBest rssi r = { r with best_rssi := b } := by
  cases rssi with
  | none => exact ⟨r.best_rssi, rfl⟩
  | some v =>
    simp only [obsBest]
    cases hb : r.best_rssi with
    | none => exact ⟨some v, by simp⟩
    | some best =>
      by_cases h : v > best
      · exact ⟨some v, by simp [h]⟩
      · exact ⟨r.best_rssi, by simp [h]⟩

theorem obsAddr_shape (address : Option String) (r : DeviceRec) :
    ∃ l, obsAddr address r = { r with addresses := l } := by
  cases address with
  | none => exact ⟨r.addresses, rfl⟩
  | some a =>
    simp only [obsAddr]
    by_cases h : a ≠ "" ∧ a ∉ r.addresses
    · exact ⟨r.addresses ++ [a], by simp [h]⟩
    · exact ⟨r.addresses, by simp only [if_neg h]⟩

theorem obsName_shape (name : Option String) (r : DeviceRec) :
    ∃ l, obsName name r = { r with names_seen := l } := by
  cases name with
  | none => exact ⟨r.names_seen, rfl⟩
  | some n =>
    simp only [obsName]
    by_cases h : n ≠ "" ∧ n ∉ r.names_seen
    · exact ⟨r.names_seen ++ [n], by simp [h]⟩
    · exact ⟨r.names_seen, by simp only [if_neg h]⟩

/-- `observeRec` only writes the observation fields: the presence state,
presence counters, classification and dwell fields ride along untouched. -/
theorem observeRec_shape (s : Sighting) (iso : String) (ts : Int) (r : DeviceRec) :
    ∃ b ads nms evs, observeRec s iso ts r
      = { r with last_seen := iso, last_seen_ts := some ts,
                 seen_count := r.seen_count + 1, last_rssi := s.rssi,
                 best_rssi := b, addresses := ads, names_seen := nms, last_events := evs } := by
  obtain ⟨b, hb⟩ := obsBest_shape s.rssi (obsStamp s iso ts r)
  obtain ⟨ads, ha⟩ := obsAddr_shape s.address (obsBest s.rssi (obsStamp s iso ts r))
  obtain ⟨nms, hn⟩ := obsName_shape s.name
    (obsAddr s.address (obsBest s.rssi (obsStamp s iso ts r)))
  refine ⟨b, ads, nms,
    (obsName s.name (obsAddr s.address (obsBest s.rssi (obsStamp s iso ts r)))).last_events
      ++ [{ time := iso, address := s.address, rssi := s.rssi, source := s.source }]
      |> lastSlice MAX_LAST_EVENTS, ?_⟩
  show obsEvents s iso
    (obsName s.name (obsAddr s.address (obsBest s.rssi (obsStamp s iso ts r)))) = _
  simp only [obsEvents]
  rw [hn, ha, hb]
  rfl

theorem obsBest_best (rssi : Option Int) (r : DeviceRec) :
    (obsBest rssi r).best_rssi = (match rssi with
      | none => r.best_rssi
      | some v => some (match r.best_rssi with | none => v | some b => max b v)) := by
  cases rssi with
  | none => rfl
  | some v =>
    simp only [obsBest]
    cases hb : r.best_rssi with
    | none => rfl
    | some b =>
      by_cases h : v > b
      · simp [h, max_eq_right (le_of_lt h)]
      · simp [h, hb, max_eq_left (not_lt.mp h)]

/-- The `best_rssi` an upsert leaves behind is decided by the `obsBest`
step alone: raised to the maximum when a value is present, untouched when
the sighting carries none. -/
theorem observeRec_best (s : Sighting) (iso : String) (ts : Int) (r : DeviceRec) :
    (observeRec s iso ts r).best_rssi = (match s.rssi with
      | none => r.best_rssi
      | some v => some (match r.best_rssi with | none => v | some b => max b v)) := by
  obtain ⟨ads, ha⟩ := obsAddr_shape s.address (obsBest s.rssi (obsStamp s iso ts r))
  obtain ⟨nms, hn⟩ := obsName_shape s.name
    (obsAddr s.address (obsBest s.rssi (obsStamp s iso ts r)))
  have hred : (observeRec s iso ts r).best_rssi
      = (obsBest s.rssi (obsStamp s iso ts r)).best_rssi := by
    show (obsEvents s iso
      (obsName s.name (obsAddr s.address (obsBest s.rssi (obsStamp s iso ts r))))).best_rssi = _
    simp only [obsEvents]
    rw [hn, ha]
  rw [hred, obsBest_best]
  rfl

theorem enterRec_frame (name : Option String) (iso : String) (ts : Int) (r : DeviceRec) :
    ((enterRec name iso ts r).1).seen_count = r.seen_count ∧
    ((enterRec name iso ts r).1).last_rssi = r.last_rssi ∧
    ((enterRec name iso ts r).1).best_rssi = r.best_rssi ∧
    ((enterRec name iso ts r).1).last_left = r.last_left ∧
    ((enterRec name iso ts r).1).last_left_ts = r.last_left_ts ∧
    ((enterRec name iso ts r).1).leave_count = r.leave_count ∧
    ((enterRec name iso ts r).1).primary_tag = r.primary_tag ∧
    ((enterRec name iso ts r).1).presence_by_day = r.presence_by_day ∧
    ((enterRec name iso ts r).1).last_seen_ts = r.last_seen_ts := by
  cases hp : r.present with
  | true => simp [enterRec, hp]
  | false =>
    by_cases hl : r.last_left ≠ none
    · simp [enterRec, hp, hl]
    · simp [enterRec, hp, hl]

theorem enterRec_absent (name : Option String) (iso : String) (ts : Int) (r : DeviceRec)
    (h : r.present = false) :
    ((enterRec name iso ts r).1).present = true ∧
    ((enterRec name iso ts r).1).enter_count = r.enter_count + 1 ∧
    ((enterRec name iso ts r).1).reenter_count
      = r.reenter_count + (if r.last_left ≠ none then 1 else 0) ∧
    ((enterRec name iso ts r).1).last_enter = some iso ∧
    ((enterRec name iso ts r).1).last_enter_ts = some ts ∧
    (enterRec name iso ts r).2 = qualifies_for_notify r name := by
  by_cases hl : r.last_left ≠ none
  · simp [enterRec, h, hl, qualifies_for_notify]
  · simp [enterRec, h, hl, qualifies_for_notify]

theorem enterRec_present (name : Option String) (iso : String) (ts : Int) (r : DeviceRec)
    (h : r.present = true) : enterRec name iso ts r = (r, false) := by
  simp [enterRec, h]

theorem update_presence_time_frame (r : DeviceRec) (ts : Int) :
    (update_presence_time r ts).present = r.present ∧
    (update_presence_time r ts).last_left = r.last_left ∧
    (update_presence_time r ts).leave_count = r.leave_count ∧
    (update_presence_time r ts).seen_count = r.seen_count ∧
    (update_presence_time r ts).enter_count = r.enter_count ∧
    (update_presence_time r ts).reenter_count = r.reenter_count ∧
    (update_presence_time r ts).last_enter_ts = r.last_enter_ts := by
  simp only [update_presence_time]
  cases he : r.last_enter_ts with
  | none => simp [he]
  | some t =>
    by_cases h0 : t = 0
    · simp [he, h0]
    · simp [he, h0]

/-! ## Lemmas about the per-day dictionary -/

theorem dGet_map_set_same (k v dflt : Int) :
    ∀ d : List (Int × Int), dHas d k = true →
      dGet (d.map (fun p => if p.1 = k then (k, v) else p)) k dflt = v
  | [], h => by simp [dHas] at h
  | p :: rest, h => by
    by_cases hp : p.1 = k
    · simp [dGet, hp]
    · have hrest : dHas rest k = true := by simpa [dHas, hp] using h
      simp [dGet, hp, dGet_map_set_same k v dflt rest hrest]

theorem dGet_append_of_not_has (k dflt : Int) :
    ∀ d : List (Int × Int), dHas d k = false →
      ∀ l, dGet (d ++ l) k dflt = dGet l k dflt
  | [], _, l => by simp [dGet]
  | p :: rest, h, l => by
    have hp : ¬ p.1 = k := by
      intro hc
      simp [dHas, hc] at h
    have hrest : dHas rest k = false := by
      simpa [dHas, hp] using h
    simp [dGet, hp, dGet_append_of_not_has k dflt rest hrest l]

theorem dGet_dSet_same (d : List (Int × Int)) (k v dflt : Int) :
    dGet (dSet d k v) k dflt = v := by
  unfold dSet
  by_cases h : dHas d k
  · simp [h, dGet_map_set_same k v dflt d h]
  · simp only [h, Bool.false_eq_true, if_false]
    rw [dGet_append_of_not_has k dflt d (by simpa using h)]
    simp [dGet]

theorem dGet_map_set_other (k v k' dflt : Int) (hne : k' ≠ k) :
    ∀ d : List (Int × Int),
      dGet (d.map (fun p => if p.1 = k then (k, v) else p)) k' dflt = dGet d k' dflt
  | [] => by simp [dGet]
  | p :: rest => by
    by_cases hp : p.1 = k
    · have hk : ¬ k = k' := fun hc => hne hc.symm
      have hp' : ¬ p.1 = k' := by rw [hp]; exact hk
      simp [dGet, hp, hk, hp', dGet_map_set_other k v k' dflt hne rest]
    · by_cases hp' : p.1 = k'
      · simp [dGet, hp, hp', hne]
      · simp [dGet, hp, hp', dGet_map_set_other k v k' dflt hne rest]

theorem dGet_append_single_other (k v k' dflt : Int) (hne : k' ≠ k) :
    ∀ d : List (Int × Int), dGet (d ++ [(k, v)]) k' dflt = dGet d k' dflt
  | [] => by
    have hk : ¬ k = k' := fun hc => hne hc.symm
    simp [dGet, hk]
  | p :: rest => by
    by_cases hp' : p.1 = k'
    · simp [dGet, hp']
    · simp [dGet, hp', dGet_append_single_other k v k' dflt hne rest]

theorem dGet_dSet_other (d : List (Int × Int)) (k v k' dflt : Int) (hne : k' ≠ k) :
    dGet (dSet d k v) k' dflt = dGet d k' dflt := by
  unfold dSet
  by_cases h : dHas d k
  · simp [h, dGet_map_set_other k v k' dflt hne d]
  · simp [h, dGet_append_single_other k v k' dflt hne d]

/-! ## Behaviour of the sweep body -/

theorem mark_left_rec_transition (now_ts : Int) (now_iso : String) (r : DeviceRec)
    (hp : r.present = true) (hpos : 0 < r.last_seen_ts.getD 0)
    (hstale : now_ts - r.last_seen_ts.getD 0 ≥ LEAVE_TIMEOUT) :
    mark_left_rec now_ts now_iso r
      = update_presence_time
          { r with present := false, last_left := some now_iso,
                   leave_count := r.leave_count + 1 } now_ts := by
  simp [mark_left_rec, hp, not_le.mpr hpos, hstale]

theorem mark_left_rec_noop (now_ts : Int) (now_iso : String) (r : DeviceRec)
    (h : r.present = false ∨ r.last_seen_ts.getD 0 ≤ 0 ∨
      now_ts - r.last_seen_ts.getD 0 < LEAVE_TIMEOUT) :
    mark_left_rec now_ts now_iso r = r := by
  by_cases hp : r.present
  · rcases h with h | h | h
    · rw [hp] at h; cases h
    · simp [mark_left_rec, hp, h]
    · simp [mark_left_rec, hp, not_le.mpr h]
  · simp [mark_left_rec, hp]

/-! ## Claim C2 -/

/-- C2 counterexample: a Present record whose last-seen epoch is exactly
`LEAVE_TIMEOUT` seconds before now — and therefore not *more* than the
timeout in the past — is nonetheless transitioned to Absent by the sweep
(the source tests `>= LEAVE_TIMEOUT`, not `>`). -/
theorem stale_sweep_boundary_counterexample :
    (({ baseRec with present := true, last_seen_ts := some 10 } : DeviceRec).present = true) ∧
    ¬ ((130 : Int) -
        ({ baseRec with present := true, last_seen_ts := some 10 } : DeviceRec).last_seen_ts.getD 0
        > LEAVE_TIMEOUT) ∧
    (mark_left_rec 130 "2024-01-01T00:02:10Z"
        { baseRec with present := true, last_seen_ts := some 10 }).present = false ∧
    (mark_left_rec 130 "2024-01-01T00:02:10Z"
        { baseRec with present := true, last_seen_ts := some 10 }).leave_count
      = ({ baseRec with present := true, last_seen_ts := some 10 } : DeviceRec).leave_count
        + 1 := by
  decide

/-- C2 (amended): the sweep applies the per-record body to every record of
the registry; that body transitions exactly the Present records whose
last-seen epoch is positive and at least `LEAVE_TIMEOUT` seconds before
`now` — stamping `last_left`, incrementing `leave_count`, and stamping
`last_left_ts` whenever the record carries a nonzero enter timestamp — and
returns every other record (Absent, or Present and seen strictly within the
timeout, or Present without a positive last-seen epoch) unchanged. -/
theorem stale_sweep_exactness (st : TrackerState) (now_ts : Int) (now_iso : String)
    (r : DeviceRec) :
    ((mark_left_if_stale now_ts now_iso st).devices
        = st.devices.map (fun kv => (kv.1, mark_left_rec now_ts now_iso kv.2))) ∧
    (r.present = true → 0 < r.last_seen_ts.getD 0 →
      now_ts - r.last_seen_ts.getD 0 ≥ LEAVE_TIMEOUT →
        (mark_left_rec now_ts now_iso r).present = false ∧
        (mark_left_rec now_ts now_iso r).last_left = some now_iso ∧
        (mark_left_rec now_ts now_iso r).leave_count = r.leave_count + 1 ∧
        (∀ t, r.last_enter_ts = some t → t ≠ 0 →
          (mark_left_rec now_ts now_iso r).last_left_ts = some now_ts)) ∧
    (r.present = false ∨ r.last_seen_ts.getD 0 ≤ 0 ∨
        now_ts - r.last_seen_ts.getD 0 < LEAVE_TIMEOUT →
      mark_left_rec now_ts now_iso r = r) := by
  refine ⟨rfl, ?_, mark_left_rec_noop now_ts now_iso r⟩
  intro hp hpos hstale
  rw [mark_left_rec_transition now_ts now_iso r hp hpos hstale]
  have hfr := update_presence_time_frame
    { r with present := false, last_left := some now_iso,
             leave_count := r.leave_count + 1 } now_ts
  refine ⟨hfr.1, hfr.2.1, hfr.2.2.1, ?_⟩
  intro t ht h0
  simp [update_presence_time, ht, h0]

/-- Witness for C2 at a concrete transitioning record and a concrete
non-transitioning (absent) record. -/
theorem stale_sweep_exactness_witness :
    (mark_left_rec 200 "2024-01-01T00:03:20Z"
        { baseRec with present := true, last_seen_ts := some 10,
                       last_enter_ts := some 5 }).present = false ∧
    (mark_left_rec 200 "2024-01-01T00:03:20Z"
        { baseRec with present := true, last_seen_ts := some 10,
                       last_enter_ts := some 5 }).last_left_ts = some 200 ∧
    mark_left_rec 200 "2024-01-01T00:03:20Z" baseRec = baseRec := by
  have h := stale_sweep_exactness ⟨[], "m", false⟩ 200 "2024-01-01T00:03:20Z"
    { baseRec with present := true, last_seen_ts := some 10, last_enter_ts := some 5 }
  have htr := h.2.1 (by decide) (by decide) (by decide)
  have h2 := stale_sweep_exactness ⟨[], "m", false⟩ 200 "2024-01-01T00:03:20Z" baseRec
  exact ⟨htr.1, htr.2.2.2 5 (by decide) (by decide), h2.2.2 (Or.inl (by decide))⟩

/-! ## Claim C3 -/

/-- C3: dwell aggregation is touched only by a present-to-absent sweep
transition of a record with a truthy (nonzero) enter timestamp. Then the
bucket of the UTC day of the enter epoch `t0` grows by exactly
`max 0 (now - t0)` — the elapsed time clamped at zero — and every other
bucket is unchanged. An upsert never changes the aggregation, a transition
without a truthy enter timestamp never changes it, and a sweep of a
non-transitioning record changes nothing at all. -/
theorem dwell_aggregation_spec (s : Sighting) (iso iso2 : String) (ts now_ts : Int)
    (r : DeviceRec) :
    ((upsertRec s iso ts r).1.presence_by_day = r.presence_by_day) ∧
    (∀ t0, r.present = true → r.last_enter_ts = some t0 → t0 ≠ 0 →
      0 < r.last_seen_ts.getD 0 → now_ts - r.last_seen_ts.getD 0 ≥ LEAVE_TIMEOUT →
      (dGet (mark_left_rec now_ts iso2 r).presence_by_day (epochDay t0) 0
          = dGet r.presence_by_day (epochDay t0) 0 + max 0 (now_ts - t0)) ∧
      (∀ k, k ≠ epochDay t0 →
        dGet (mark_left_rec now_ts iso2 r).presence_by_day k 0
          = dGet r.presence_by_day k 0)) ∧
    ((r.last_enter_ts = none ∨ r.last_enter_ts = some 0) →
      (mark_left_rec now_ts iso2 r).presence_by_day = r.presence_by_day) ∧
    (staleTransition now_ts r = false → mark_left_rec now_ts iso2 r = r) := by
  refine ⟨?_, ?_, ?_, ?_⟩
  · show (enterRec s.name iso ts (observeRec s iso ts r)).1.presence_by_day = _
    rw [(enterRec_frame s.name iso ts (observeRec s iso ts r)).2.2.2.2.2.2.2.1]
    obtain ⟨b, ads, nms, evs, hsh⟩ := observeRec_shape s iso ts r
    rw [hsh]
  · intro t0 hp ht h0 hpos hstale
    rw [mark_left_rec_transition now_ts iso2 r hp hpos hstale]
    simp only [update_presence_time, ht, if_neg h0]
    constructor
    · exact dGet_dSet_same _ _ _ _
    · intro k hk
      exact dGet_dSet_other _ _ _ _ _ hk
  · intro he
    by_cases hp : r.present
    · by_cases hpos : 0 < r.last_seen_ts.getD 0
      · by_cases hstale : now_ts - r.last_seen_ts.getD 0 ≥ LEAVE_TIMEOUT
        · rw [mark_left_rec_transition now_ts iso2 r hp hpos hstale]
          rcases he with he | he
          · simp [update_presence_time, he]
          · simp [update_presence_time, he]
        · rw [mark_left_rec_noop now_ts iso2 r (Or.inr (Or.inr (not_le.mp hstale)))]
      · rw [mark_left_rec_noop now_ts iso2 r (Or.inr (Or.inl (not_lt.mp hpos)))]
    · rw [mark_left_rec_noop now_ts iso2 r
        (Or.inl (by revert hp; cases r.present <;> simp))]
  · intro hst
    apply mark_left_rec_noop
    by_cases hp : r.present
    · by_cases hpos : 0 < r.last_seen_ts.getD 0
      · right; right
        by_contra hs
        rw [staleTransition] at hst
        simp [hp, hpos, not_lt.mp hs] at hst
      · exact Or.inr (Or.inl (not_lt.mp hpos))
    · exact Or.inl (by revert hp; cases r.present <;> simp)

/-- Witness for C3: a record that entered at epoch 5 and is swept at 200
gains 195 seconds in the bucket of day 0, and an upsert on a record with a
nonempty aggregation leaves the aggregation alone. -/
theorem dwell_aggregation_spec_witness :
    dGet (mark_left_rec 200 "2024-01-01T00:03:20Z"
        { baseRec with present := true, last_seen_ts := some 10, last_enter_ts := some 5,
                       presence_by_day := [(0, 7)] }).presence_by_day 0 0 = 7 + 195 ∧
    (upsertRec ⟨none, none, none, [], [], [], none⟩ "t" 300
        { baseRec with presence_by_day := [(0, 7)] }).1.presence_by_day = [(0, 7)] := by
  have h := dwell_aggregation_spec ⟨none, none, none, [], [], [], none⟩ "t"
    "2024-01-01T00:03:20Z" 300 200
    { baseRec with present := true, last_seen_ts := some 10, last_enter_ts := some 5,
                   presence_by_day := [(0, 7)] }
  have hb := (h.2.1 5 (by decide) (by decide) (by decide) (by decide) (by decide)).1
  have h2 := dwell_aggregation_spec ⟨none, none, none, [], [], [], none⟩ "t"
    "2024-01-01T00:03:20Z" 300 200 { baseRec with presence_by_day := [(0, 7)] }
  refine ⟨?_, h2.1⟩
  rw [show epochDay 5 = 0 by decide] at hb
  rw [hb]
  decide

/-! ## Claim C4 -/

/-- C4: an upsert that drives an Absent record to Present dispatches a
notification if and only if the sighting's trimmed, lower-cased name is not
in the suppression set AND (the trimmed name is non-empty OR the record's
primary tag is not `"unclassified"`); a suppressed name alone rules the
dispatch out, whatever the tags say. -/
theorem notify_qualification (s : Sighting) (iso : String) (ts : Int) (r : DeviceRec)
    (hp : r.present = false) :
    ((upsertRec s iso ts r).2 = true ↔
      (name_suppressed s.name = false ∧
        (trimS (s.name.getD "") ≠ "" ∨ r.primary_tag ≠ "unclassified"))) ∧
    (name_suppressed s.name = true → (upsertRec s iso ts r).2 = false) := by
  obtain ⟨b, ads, nms, evs, hsh⟩ := observeRec_shape s iso ts r
  have hobs_present : (observeRec s iso ts r).present = false := by rw [hsh]; exact hp
  have hq := (enterRec_absent s.name iso ts (observeRec s iso ts r) hobs_present).2.2.2.2.2
  have hpt : (observeRec s iso ts r).primary_tag = r.primary_tag := by rw [hsh]
  have hup : (upsertRec s iso ts r).2
      = qualifies_for_notify (observeRec s iso ts r) s.name := hq
  rw [hup, qualifies_for_notify, hpt]
  by_cases hns : name_suppressed s.name
  · simp [hns]
  · simp [hns]

/-- Witness for C4: a suppressed name never notifies even on a classified
record; an unsuppressed named sighting notifies. -/
theorem notify_qualification_witness :
    (upsertRec ⟨none, some "Your_Devices_Here ", some (-60), [76], [], [], none⟩
        "t" 100 { baseRec with primary_tag := "vendor:apple" }).2 = false ∧
    (upsertRec ⟨none, some "my watch", none, [], [], [], none⟩ "t" 100 baseRec).2 = true := by
  have h1 := notify_qualification
    ⟨none, some "Your_Devices_Here ", some (-60), [76], [], [], none⟩ "t" 100
    { baseRec with primary_tag := "vendor:apple" } (by decide)
  have h2 := notify_qualification ⟨none, some "my watch", none, [], [], [], none⟩ "t" 100
    baseRec (by decide)
  exact ⟨h1.2 (by decide), h2.1.mpr (by decide)⟩

/-! ## Claim C7 -/

/-- C7: an upsert that drives a record from Absent to Present bumps
`reenter_count` exactly when the record carries a prior leave stamp
(`last_left`), always bumps `enter_count`, and the very first enter of a
freshly created record yields `enter_count = 1` with `reenter_count = 0`. -/
theorem reenter_counting (s : Sighting) (iso iso0 iso2 : String) (ts : Int) (r : DeviceRec)
    (fp : String) (material : FingerprintMaterial) (tags : List String) (primary : String)
    (hp : r.present = false) :
    ((upsertRec s iso ts r).1.reenter_count
        = r.reenter_count + (if r.last_left ≠ none then 1 else 0)) ∧
    ((upsertRec s iso ts r).1.enter_count = r.enter_count + 1) ∧
    ((upsertRec s iso2 ts (freshRec fp material tags primary iso0)).1.enter_count = 1) ∧
    ((upsertRec s iso2 ts (freshRec fp material tags primary iso0)).1.reenter_count = 0) := by
  obtain ⟨b, ads, nms, evs, hsh⟩ := observeRec_shape s iso ts r
  have hobs_present : (observeRec s iso ts r).present = false := by rw [hsh]; exact hp
  have habs := enterRec_absent s.name iso ts (observeRec s iso ts r) hobs_present
  obtain ⟨b2, ads2, nms2, evs2, hsh2⟩ :=
    observeRec_shape s iso2 ts (freshRec fp material tags primary iso0)
  have hobs2_present :
      (observeRec s iso2 ts (freshRec fp material tags primary iso0)).present = false := by
    rw [hsh2]; rfl
  have habs2 := enterRec_absent s.name iso2 ts
    (observeRec s iso2 ts (freshRec fp material tags primary iso0)) hobs2_present
  refine ⟨?_, ?_, ?_, ?_⟩
  · show (enterRec s.name iso ts (observeRec s iso ts r)).1.reenter_count = _
    rw [habs.2.2.1, hsh]
  · show (enterRec s.name iso ts (observeRec s iso ts r)).1.enter_count = _
    rw [habs.2.1, hsh]
  · show (enterRec s.name iso2 ts
      (observeRec s iso2 ts (freshRec fp material tags primary iso0))).1.enter_count = _
    rw [habs2.2.1, hsh2]
    rfl
  · show (enterRec s.name iso2 ts
      (observeRec s iso2 ts (freshRec fp material tags primary iso0))).1.reenter_count = _
    rw [habs2.2.2.1, hsh2]
    rfl

/-- Witness for C7: a re-enter after a prior leave bumps `reenter_count`,
and a brand-new record's first enter does not. -/
theorem reenter_counting_witness :
    ((upsertRec ⟨none, none, none, [], [], [], none⟩ "t" 100
        { baseRec with last_left := some "2024-01-01T00:00:00Z",
                       reenter_count := 4, enter_count := 5 }).1.reenter_count = 5) ∧
    ((upsertRec ⟨none, none, none, [], [], [], none⟩ "t" 100
        (freshRec "f" ⟨[], [], []⟩ [] "unclassified" "t0")).1.enter_count = 1) ∧
    ((upsertRec ⟨none, none, none, [], [], [], none⟩ "t" 100
        (freshRec "f" ⟨[], [], []⟩ [] "unclassified" "t0")).1.reenter_count = 0) := by
  have h := reenter_counting ⟨none, none, none, [], [], [], none⟩ "t" "t0" "t" 100
    { baseRec with last_left := some "2024-01-01T00:00:00Z",
                   reenter_count := 4, enter_count := 5 }
    "f" ⟨[], [], []⟩ [] "unclassified" (by decide)
  refine ⟨?_, h.2.2.1, h.2.2.2⟩
  rw [h.1]
  decide

/-! ## Claim C8 -/

theorem upsertRec_seen (s : Sighting) (iso : String) (ts : Int) (r : DeviceRec) :
    (upsertRec s iso ts r).1.seen_count = r.seen_count + 1 := by
  show (enterRec s.name iso ts (observeRec s iso ts r)).1.seen_count = _
  rw [(enterRec_frame s.name iso ts (observeRec s iso ts r)).1]
  obtain ⟨b, ads, nms, evs, hsh⟩ := observeRec_shape s iso ts r
  rw [hsh]

theorem upsertRec_counters (s : Sighting) (iso : String) (ts : Int) (r : DeviceRec) :
    (upsertRec s iso ts r).1.seen_count = r.seen_count + 1 ∧
    r.enter_count ≤ (upsertRec s iso ts r).1.enter_count ∧
    (upsertRec s iso ts r).1.leave_count = r.leave_count ∧
    r.reenter_count ≤ (upsertRec s iso ts r).1.reenter_count := by
  obtain ⟨b, ads, nms, evs, hsh⟩ := observeRec_shape s iso ts r
  have hfr := enterRec_frame s.name iso ts (observeRec s iso ts r)
  refine ⟨upsertRec_seen s iso ts r, ?_, ?_, ?_⟩
  · cases hp : r.present with
    | true =>
      have hobs : (observeRec s iso ts r).present = true := by rw [hsh]; exact hp
      show (enterRec s.name iso ts (observeRec s iso ts r)).1.enter_count ≥ _
      rw [enterRec_present s.name iso ts (observeRec s iso ts r) hobs, hsh]
    | false =>
      have hobs : (observeRec s iso ts r).present = false := by rw [hsh]; exact hp
      have habs := enterRec_absent s.name iso ts (observeRec s iso ts r) hobs
      show _ ≤ (enterRec s.name iso ts (observeRec s iso ts r)).1.enter_count
      rw [habs.2.1, hsh]
      show r.enter_count ≤ r.enter_count + 1
      omega
  · show (enterRec s.name iso ts (observeRec s iso ts r)).1.leave_count = _
    rw [hfr.2.2.2.2.2.1, hsh]
  · cases hp : r.present with
    | true =>
      have hobs : (observeRec s iso ts r).present = true := by rw [hsh]; exact hp
      show _ ≤ (enterRec s.name iso ts (observeRec s iso ts r)).1.reenter_count
      rw [enterRec_present s.name iso ts (observeRec s iso ts r) hobs, hsh]
    | false =>
      have hobs : (observeRec s iso ts r).present = false := by rw [hsh]; exact hp
      have habs := enterRec_absent s.name iso ts (observeRec s iso ts r) hobs
      show _ ≤ (enterRec s.name iso ts (observeRec s iso ts r)).1.reenter_count
      rw [habs.2.2.1, hsh]
      show r.reenter_count ≤ r.reenter_count + if r.last_left ≠ none then 1 else 0
      split <;> omega

theorem mark_left_rec_counters (now_ts : Int) (iso : String) (r : DeviceRec) :
    (mark_left_rec now_ts iso r).seen_count = r.seen_count ∧
    (mark_left_rec now_ts iso r).enter_count = r.enter_count ∧
    (mark_left_rec now_ts iso r).reenter_count = r.reenter_count ∧
    r.leave_count ≤ (mark_left_rec now_ts iso r).leave_count := by
  by_cases hp : r.present
  · by_cases hpos : 0 < r.last_seen_ts.getD 0
    · by_cases hstale : now_ts - r.last_seen_ts.getD 0 ≥ LEAVE_TIMEOUT
      · rw [mark_left_rec_transition now_ts iso r hp hpos hstale]
        have hfr := update_presence_time_frame
          { r with present := false, last_left := some iso,
                   leave_count := r.leave_count + 1 } now_ts
        refine ⟨hfr.2.2.2.1, hfr.2.2.2.2.1, hfr.2.2.2.2.2.1, ?_⟩
        rw [hfr.2.2.1]
        show r.leave_count ≤ r.leave_count + 1
        omega
      · rw [mark_left_rec_noop now_ts iso r (Or.inr (Or.inr (not_le.mp hstale)))]
        exact ⟨rfl, rfl, rfl, le_refl _⟩
    · rw [mark_left_rec_noop now_ts iso r (Or.inr (Or.inl (not_lt.mp hpos)))]
      exact ⟨rfl, rfl, rfl, le_refl _⟩
  · rw [mark_left_rec_noop now_ts iso r (Or.inl (by revert hp; cases r.present <;> simp))]
    exact ⟨rfl, rfl, rfl, le_refl _⟩

theorem applyOp_counters (o : TrackerOp) (r : DeviceRec) :
    r.seen_count ≤ (applyOp o r).seen_count ∧
    r.enter_count ≤ (applyOp o r).enter_count ∧
    r.leave_count ≤ (applyOp o r).leave_count ∧
    r.reenter_count ≤ (applyOp o r).reenter_count := by
  cases o with
  | sight s iso ts =>
    have h := upsertRec_counters s iso ts r
    exact ⟨by rw [show applyOp (.sight s iso ts) r = (upsertRec s iso ts r).1 from rfl, h.1];
              omega,
           h.2.1, le_of_eq h.2.2.1.symm, h.2.2.2⟩
  | sweep ts iso =>
    have h := mark_left_rec_counters ts iso r
    exact ⟨le_of_eq h.1.symm, le_of_eq h.2.1.symm, h.2.2.2, le_of_eq h.2.2.1.symm⟩

theorem applyOps_counters : ∀ (ops : List TrackerOp) (r : DeviceRec),
    r.seen_count ≤ (applyOps ops r).seen_count ∧
    r.enter_count ≤ (applyOps ops r).enter_count ∧
    r.leave_count ≤ (applyOps ops r).leave_count ∧
    r.reenter_count ≤ (applyOps ops r).reenter_count
  | [], r => ⟨le_refl _, le_refl _, le_refl _, le_refl _⟩
  | o :: ops, r => by
    have h1 := applyOp_counters o r
    have h2 := applyOps_counters ops (applyOp o r)
    have hstep : applyOps (o :: ops) r = applyOps ops (applyOp o r) := rfl
    rw [hstep]
    exact ⟨le_trans h1.1 h2.1, le_trans h1.2.1 h2.2.1,
           le_trans h1.2.2.1 h2.2.2.1, le_trans h1.2.2.2 h2.2.2.2⟩

/-- C8: across every interleaving of upserts and sweep ticks applied to a
record, the four counters `seen_count`, `enter_count`, `leave_count` and
`reenter_count` never decrease, and every single upsert increments
`seen_count` by exactly one whatever the record's presence state. -/
theorem counter_monotonicity :
    (∀ (ops : List TrackerOp) (r : DeviceRec),
      r.seen_count ≤ (applyOps ops r).seen_count ∧
      r.enter_count ≤ (applyOps ops r).enter_count ∧
      r.leave_count ≤ (applyOps ops r).leave_count ∧
      r.reenter_count ≤ (applyOps ops r).reenter_count) ∧
    (∀ (s : Sighting) (iso : String) (ts : Int) (r : DeviceRec),
      (upsertRec s iso ts r).1.seen_count = r.seen_count + 1) :=
  ⟨applyOps_counters, upsertRec_seen⟩

/-! ## Claim C9 -/

/-- C9: every upsert overwrites `last_rssi` with the sighting's signal
strength — including overwriting a previously recorded number with `None` —
while `best_rssi` is left unchanged by a `None` sighting and otherwise
becomes the maximum of its previous value and the new one (the new value
when no previous best exists). -/
theorem rssi_update (s : Sighting) (iso : String) (ts : Int) (r : DeviceRec) :
    ((upsertRec s iso ts r).1.last_rssi = s.rssi) ∧
    (s.rssi = none → (upsertRec s iso ts r).1.best_rssi = r.best_rssi) ∧
    (∀ v, s.rssi = some v →
      (upsertRec s iso ts r).1.best_rssi
        = some (match r.best_rssi with | none => v | some b => max b v)) := by
  have hfr := enterRec_frame s.name iso ts (observeRec s iso ts r)
  obtain ⟨b, ads, nms, evs, hsh⟩ := observeRec_shape s iso ts r
  have hbest : (upsertRec s iso ts r).1.best_rssi = (observeRec s iso ts r).best_rssi := by
    show (enterRec s.name iso ts (observeRec s iso ts r)).1.best_rssi = _
    rw [hfr.2.2.1]
  refine ⟨?_, ?_, ?_⟩
  · show (enterRec s.name iso ts (observeRec s iso ts r)).1.last_rssi = _
    rw [hfr.2.1, hsh]
  · intro h
    rw [hbest, observeRec_best, h]
  · intro v h
    rw [hbest, observeRec_best, h]

/-- Witness for C9: a `None` sighting wipes `last_rssi` but keeps
`best_rssi`; a weaker reading keeps the best, a stronger one raises it. -/
theorem rssi_update_witness :
    ((upsertRec ⟨none, none, none, [], [], [], none⟩ "t" 100
        { baseRec with last_rssi := some (-40), best_rssi := some (-40) }).1.last_rssi
      = none) ∧
    ((upsertRec ⟨none, none, none, [], [], [], none⟩ "t" 100
        { baseRec with last_rssi := some (-40), best_rssi := some (-40) }).1.best_rssi
      = some (-40)) ∧
    ((upsertRec ⟨none, none, some (-30), [], [], [], none⟩ "t" 100
        { baseRec with best_rssi := some (-40) }).1.best_rssi = some (-30)) := by
  have h1 := rssi_update ⟨none, none, none, [], [], [], none⟩ "t" 100
    { baseRec with last_rssi := some (-40), best_rssi := some (-40) }
  have h2 := rssi_update ⟨none, none, some (-30), [], [], [], none⟩ "t" 100
    { baseRec with best_rssi := some (-40) }
  refine ⟨h1.1, ?_, ?_⟩
  · rw [h1.2.1 rfl]
  · rw [h2.2.2 (-30) rfl]
    decide

/-! ## Claim C6 -/

/-- C6: `load_registry` is a total function of the file state (the model of
"never raises or propagates an error"), and on every recovery path —
absent file, empty or whitespace-only text, text that fails to parse, or
text parsing to a non-object — it returns the freshly initialized registry:
empty device mapping, metadata stamped with the current creation time. -/
theorem load_registry_recovers (file : Option String) (now_iso : String)
    (h : file = none ∨ ∃ s, file = some s ∧
      (wsOnly s.data = true ∨ json_loads s = none ∨
        ∃ v, json_loads s = some v ∧ jIsObj v = false)) :
    load_registry file now_iso = fresh_registry now_iso := by
  rcases h with rfl | ⟨s, rfl, h⟩
  · rfl
  · by_cases hws : wsOnly s.data
    · simp [load_registry, hws]
    · rcases h with h | h | ⟨v, hv, hobj⟩
      · exact absurd h hws
      · simp [load_registry, hws, h]
      · cases v with
        | jobj ms => simp [jIsObj] at hobj
        | jnull => simp [load_registry, hws, hv]
        | jbool b => simp [load_registry, hws, hv]
        | jnum m e => simp [load_registry, hws, hv]
        | jstr s2 => simp [load_registry, hws, hv]
        | jarr xs => simp [load_registry, hws, hv]

/-- Witness for C6: an absent file, a whitespace-only file, an unparseable
file and a non-object file all load as the fresh registry. -/
theorem load_registry_recovers_witness :
    load_registry none "2024-01-01T00:00:00Z" = fresh_registry "2024-01-01T00:00:00Z" ∧
    load_registry (some " \n ") "2024-01-01T00:00:00Z"
      = fresh_registry "2024-01-01T00:00:00Z" ∧
    load_registry (some "not json") "2024-01-01T00:00:00Z"
      = fresh_registry "2024-01-01T00:00:00Z" ∧
    load_registry (some "[1, 2]") "2024-01-01T00:00:00Z"
      = fresh_registry "2024-01-01T00:00:00Z" :=
  ⟨load_registry_recovers none _ (Or.inl rfl),
   load_registry_recovers (some " \n ") _ (Or.inr ⟨_, rfl, Or.inl (by rfl)⟩),
   load_registry_recovers (some "not json") _ (Or.inr ⟨_, rfl, Or.inr (Or.inl (by rfl))⟩),
   load_registry_recovers (some "[1, 2]") _
     (Or.inr ⟨_, rfl, Or.inr (Or.inr ⟨.jarr [.jnum 1 0, .jnum 2 0], by rfl, by rfl⟩)⟩)⟩

/-! ## Digit strings: specification and inverses -/

theorem digitChar_isDigit (d : Nat) (h : d < 10) : isDigitC (digitChar d) = true := by
  interval_cases d <;> decide

theorem digitChar_toNat (d : Nat) (h : d < 10) : (digitChar d).toNat = 48 + d := by
  interval_cases d <;> decide

theorem digitChar_ne_zero (d : Nat) (h : d < 10) (h0 : d ≠ 0) : digitChar d ≠ '0' := by
  interval_cases d <;> revert h0 <;> decide

theorem natDigsAux_spec : ∀ (fuel n : Nat) (acc : List Char), n < 10 ^ (fuel + 1) →
    natDigsAux (fuel + 1) n acc = digsOf n ++ acc
  | fuel, n, acc, h => by
    rw [natDigsAux, digsOf]
    by_cases h10 : n < 10
    · simp [h10]
    · simp only [if_neg h10]
      cases fuel with
      | zero => omega
      | succ f =>
        rw [natDigsAux_spec f (n / 10) _ (by
          have hpow : 10 ^ (f + 1 + 1) = 10 ^ (f + 1) * 10 := by ring
          omega)]
        simp

theorem natDigs_eq (n : Nat) : natDigs n = digsOf n := by
  have h : n < 10 ^ (n + 1) := by
    calc n < 10 ^ n := Nat.lt_pow_self (by omega) n
    _ ≤ 10 ^ (n + 1) := Nat.pow_le_pow_right (by omega) (by omega)
  simpa using natDigsAux_spec n n [] h

theorem digsOf_ne_nil (n : Nat) : digsOf n ≠ [] := by
  rw [digsOf]
  by_cases h : n < 10 <;> simp [h]

theorem digsOf_digits (n : Nat) : ∀ c ∈ digsOf n, isDigitC c = true := by
  induction n using Nat.strong_induction_on with
  | _ n ih =>
    rw [digsOf]
    by_cases h : n < 10
    · simp only [if_pos h, List.mem_singleton]
      rintro c rfl
      exact digitChar_isDigit n h
    · simp only [if_neg h, List.mem_append, List.mem_singleton]
      rintro c (hc | rfl)
      · exact ih (n / 10) (Nat.div_lt_self (by omega) (by omega)) c hc
      · exact digitChar_isDigit _ (Nat.mod_lt _ (by omega))

theorem foldl_digsVal (l : List Char) : ∀ init : Nat,
    l.foldl (fun a c => a * 10 + (c.toNat - 48)) init
      = init * 10 ^ l.length + digsVal l := by
  induction l with
  | nil => intro init; simp [digsVal]
  | cons c cs ih =>
    intro init
    show cs.foldl _ (init * 10 + (c.toNat - 48)) = _
    rw [ih (init * 10 + (c.toNat - 48))]
    have h2 : digsVal (c :: cs) = (c.toNat - 48) * 10 ^ cs.length + digsVal cs := by
      show cs.foldl _ (0 * 10 + (c.toNat - 48)) = _
      rw [ih (0 * 10 + (c.toNat - 48))]
      ring_nf
    rw [h2]
    simp [List.length_cons]
    ring

theorem digsVal_append (a b : List Char) :
    digsVal (a ++ b) = digsVal a * 10 ^ b.length + digsVal b := by
  unfold digsVal
  rw [List.foldl_append, foldl_digsVal]
  rfl

theorem digsVal_digsOf (n : Nat) : digsVal (digsOf n) = n := by
  induction n using Nat.strong_induction_on with
  | _ n ih =>
    rw [digsOf]
    by_cases h : n < 10
    · simp only [if_pos h]
      show 0 * 10 + ((digitChar n).toNat - 48) = n
      rw [digitChar_toNat n h]
      omega
    · simp only [if_neg h]
      rw [digsVal_append, ih (n / 10) (Nat.div_lt_self (by omega) (by omega))]
      have hl : ([digitChar (n % 10)] : List Char).length = 1 := rfl
      have hv : digsVal [digitChar (n % 10)] = n % 10 := by
        show 0 * 10 + ((digitChar (n % 10)).toNat - 48) = n % 10
        rw [digitChar_toNat _ (Nat.mod_lt _ (by omega))]
        omega
      rw [hl, hv]
      omega

theorem digsVal_replicate_zero (k : Nat) (b : List Char) :
    digsVal (List.replicate k '0' ++ b) = digsVal b := by
  rw [digsVal_append]
  have : digsVal (List.replicate k '0') = 0 := by
    induction k with
    | zero => rfl
    | succ n ih =>
      rw [List.replicate_succ]
      show (List.replicate n '0').foldl _ (0 * 10 + ('0'.toNat - 48)) = 0
      have h0 : (0 : Nat) * 10 + ('0'.toNat - 48) = 0 := by decide
      rw [h0]
      exact ih
  rw [this]
  omega

theorem digsOf_head (n : Nat) (hn : n ≠ 0) :
    ∃ c t, digsOf n = c :: t ∧ c ≠ '0' ∧ isDigitC c = true := by
  induction n using Nat.strong_induction_on with
  | _ n ih =>
    rw [digsOf]
    by_cases h : n < 10
    · exact ⟨digitChar n, [], by simp [h], digitChar_ne_zero n h hn,
        digitChar_isDigit n h⟩
    · obtain ⟨c, t, hct, hc0, hcd⟩ := ih (n / 10) (Nat.div_lt_self (by omega) (by omega))
        (by omega)
    
      exact ⟨c, t ++ [digitChar (n % 10)], by simp [h, hct], hc0, hcd⟩

/-! ## Digit-run splitting -/

theorem grabDigits_stop (cs : List Char) (h : notDigitHead cs = true) :
    grabDigits cs = ([], cs) := by
  cases cs with
  | nil => rfl
  | cons c t =>
    have : isDigitC c = false := by simpa [notDigitHead] using h
    simp [grabDigits, this]

theorem grabDigits_run (ds : List Char) (hds : ∀ c ∈ ds, isDigitC c = true)
    (rest : List Char) (hrest : notDigitHead rest = true) :
    grabDigits (ds ++ rest) = (ds, rest) := by
  induction ds with
  | nil => simpa using grabDigits_stop rest hrest
  | cons c t ih =>
    have hc : isDigitC c = true := hds c (by simp)
    have ht := ih (fun x hx => hds x (by simp [hx]))
    simp [grabDigits, hc, ht]

/-! ## Number round-trip -/

theorem numDelim_notDigitHead (cs : List Char) (h : numDelim cs = true) :
    notDigitHead cs = true := by
  cases cs with
  | nil => rfl
  | cons c t =>
    simp only [numDelim, Bool.not_eq_true', Bool.or_eq_false_iff] at h
    simp [notDigitHead, h.1.1.1]

theorem digit_ne_minus (c : Char) (h : isDigitC c = true) : c ≠ '-' := by
  intro hc
  subst hc
  simp [isDigitC] at h

theorem digit_ne_dot (c : Char) (h : isDigitC c = true) : c ≠ '.' := by
  intro hc; subst hc; simp [isDigitC] at h

theorem leadZeroOk_cons (c : Char) (t : List Char) (h : c ≠ '0') :
    leadZeroOk (c :: t) = true := by
  cases t <;> simp [leadZeroOk, h]

theorem leadZeroOk_single (c : Char) : leadZeroOk [c] = true := rfl

theorem padLeft_split (a e : Nat) :
    ∃ ids fds : List Char,
      padLeft (e + 1) (digsOf a) = ids ++ fds ∧
      fds.length = e ∧
      ids ≠ [] ∧
      (∀ c ∈ ids, isDigitC c = true) ∧
      (∀ c ∈ fds, isDigitC c = true) ∧
      leadZeroOk ids = true ∧
      digsVal (ids ++ fds) = a := by
  have hdigs0 := digsOf_digits a
  have hnn := digsOf_ne_nil a
  have hlen0 : 1 ≤ (digsOf a).length := by
    cases h : digsOf a with
    | nil => exact absurd h hnn
    | cons c t => simp
  have hds : padLeft (e + 1) (digsOf a)
      = List.replicate (e + 1 - (digsOf a).length) '0' ++ digsOf a := rfl
  have hdslen : (padLeft (e + 1) (digsOf a)).length
      = (e + 1 - (digsOf a).length) + (digsOf a).length := by
    rw [hds]; simp
  have hlen_ge : e + 1 ≤ (padLeft (e + 1) (digsOf a)).length := by omega
  have halldig : ∀ c ∈ padLeft (e + 1) (digsOf a), isDigitC c = true := by
    intro c hc
    rw [hds] at hc
    rcases List.mem_append.mp hc with hm | hm
    · rw [List.eq_of_mem_replicate hm]; decide
    · exact hdigs0 c hm
  refine ⟨(padLeft (e + 1) (digsOf a)).take ((padLeft (e + 1) (digsOf a)).length - e),
          (padLeft (e + 1) (digsOf a)).drop ((padLeft (e + 1) (digsOf a)).length - e),
          (List.take_append_drop _ _).symm, ?_, ?_, ?_, ?_, ?_, ?_⟩
  · rw [List.length_drop]
    omega
  · intro h
    have := congrArg List.length h
    rw [List.length_take] at this
    simp at this
    omega
  · intro c hc
    exact halldig c (List.mem_of_mem_take hc)
  · intro c hc
    exact halldig c (List.mem_of_mem_drop hc)
  · by_cases hp : e + 1 - (digsOf a).length = 0
    · have hds' : padLeft (e + 1) (digsOf a) = digsOf a := by
        rw [hds, hp]; simp
      by_cases ha : a = 0
      · have h0 : digsOf a = ['0'] := by
          rw [ha, digsOf]
          norm_num
          decide
        have hlen1 : (digsOf a).length = 1 := by rw [h0]; rfl
        have he : e = 0 := by omega
        rw [hds', h0, he]
        decide
      · obtain ⟨c, t, hct, hc0, _⟩ := digsOf_head a ha
        rw [hds', hct]
        have hj : (c :: t).length - e = ((c :: t).length - e - 1) + 1 := by
          have h1 : e + 1 ≤ (digsOf a).length := by omega
          rw [hct] at h1
          omega
        rw [hj, List.take_succ_cons]
        exact leadZeroOk_cons c _ hc0
    · have htk : (padLeft (e + 1) (digsOf a)).length - e = 1 := by omega
      rw [htk]
      cases hq : padLeft (e + 1) (digsOf a) with
      | nil =>
        rw [hq] at hdslen
        simp at hdslen
        omega
      | cons c t =>
        rw [List.take_succ_cons, List.take_zero]
        exact leadZeroOk_single c
  · rw [List.take_append_drop, hds, digsVal_replicate_zero, digsVal_digsOf]

theorem parseNumTail_delim (neg : Bool) (ids fds : List Char) (rest : List Char)
    (h : numDelim rest = true) :
    parseNumTail neg ids fds rest = some (mkNum neg ids fds 0, rest) := by
  cases rest with
  | nil => rfl
  | cons c r =>
    simp only [numDelim, Bool.not_eq_true', Bool.or_eq_false_iff,
      decide_eq_false_iff_not] at h
    simp [parseNumTail, h.1.2, h.2]

theorem mkNum_spec (m : Int) (e : Nat) (ids fds : List Char)
    (hval : digsVal (ids ++ fds) = m.natAbs) (hfl : fds.length = e) :
    mkNum (decide (m < 0)) ids fds 0 = (m, e) := by
  unfold mkNum
  rw [hval, hfl]
  have hsm : ((if decide (m < 0) = true then (-1 : Int) else 1) * (m.natAbs : Int)) = m := by
    by_cases hm : m < 0
    · rw [decide_eq_true hm, if_pos rfl]
      omega
    · rw [decide_eq_false hm, if_neg (by simp)]
      omega
  by_cases he : e = 0
  · subst he
    rw [if_pos (by norm_num)]
    simp only [Nat.cast_zero, sub_zero, Int.toNat_zero, pow_zero, mul_one, hsm]
  · rw [if_neg (by omega), Prod.mk.injEq]
    refine ⟨hsm, ?_⟩
    simp


theorem grabDigits_run_fst (ds : List Char) (hds : ∀ c ∈ ds, isDigitC c = true)
    (rest : List Char) (hrest : notDigitHead rest = true) :
    (grabDigits (ds ++ rest)).1 = ds := by
  rw [grabDigits_run ds hds rest hrest]

theorem grabDigits_run_snd (ds : List Char) (hds : ∀ c ∈ ds, isDigitC c = true)
    (rest : List Char) (hrest : notDigitHead rest = true) :
    (grabDigits (ds ++ rest)).2 = rest := by
  rw [grabDigits_run ds hds rest hrest]

theorem parseNumBody_int (neg : Bool) (ids rest : List Char) (hne : ids ≠ [])
    (hidig : ∀ c ∈ ids, isDigitC c = true) (hlz : leadZeroOk ids = true)
    (hrest : numDelim rest = true) :
    parseNumBody neg (ids ++ rest) = some (mkNum neg ids [] 0, rest) := by
  have hndh := numDelim_notDigitHead rest hrest
  unfold parseNumBody
  simp only [grabDigits_run_fst ids hidig rest hndh,
    grabDigits_run_snd ids hidig rest hndh]
  rw [if_neg hne, if_neg (by simp [hlz])]
  cases rest with
  | nil => rfl
  | cons c r =>
    simp only [numDelim, Bool.not_eq_true', Bool.or_eq_false_iff,
      decide_eq_false_iff_not] at hrest
    have htail := parseNumTail_delim neg ids [] (c :: r) (by
      simp [numDelim, hrest.1.1.1, hrest.1.1.2, hrest.1.2, hrest.2])
    simp only [if_neg hrest.1.1.2]
    exact htail

theorem parseNumBody_frac (neg : Bool) (ids fds rest : List Char) (hne : ids ≠ [])
    (hfne : fds ≠ []) (hidig : ∀ c ∈ ids, isDigitC c = true)
    (hfdig : ∀ c ∈ fds, isDigitC c = true) (hlz : leadZeroOk ids = true)
    (hrest : numDelim rest = true) :
    parseNumBody neg (ids ++ '.' :: (fds ++ rest)) = some (mkNum neg ids fds 0, rest) := by
  have hndh := numDelim_notDigitHead rest hrest
  have hdot : notDigitHead ('.' :: (fds ++ rest)) = true := by
    simp [notDigitHead, isDigitC]
  unfold parseNumBody
  simp only [grabDigits_run_fst ids hidig _ hdot, grabDigits_run_snd ids hidig _ hdot]
  rw [if_neg hne, if_neg (by simp [hlz])]
  rw [if_pos trivial]
  simp only [grabDigits_run_fst fds hfdig rest hndh, grabDigits_run_snd fds hfdig rest hndh]
  rw [if_neg hfne]
  exact parseNumTail_delim neg ids fds rest hrest

/-- Parsing a rendered number recovers the decimal exactly, whenever the
remainder cannot extend the token. -/
theorem parseNumber_numChars (m : Int) (e : Nat) (rest : List Char)
    (hrest : numDelim rest = true) :
    parseNumber (numChars m e ++ rest) = some ((m, e), rest) := by
  obtain ⟨ids, fds, hsplit, hfl, hne, hidig, hfdig, hlz, hval⟩ := padLeft_split m.natAbs e
  have hids_len : (ids ++ fds).length - e = ids.length := by
    simp only [List.length_append, hfl]
    omega
  have hbody : numChars m e = (if m < 0 then ['-'] else []) ++
      (if e = 0 then ids ++ fds else ids ++ '.' :: fds) := by
    unfold numChars
    rw [natDigs_eq, hsplit]
    by_cases he : e = 0
    · simp [he]
    · have hlen2 : ids.length + fds.length - e = ids.length := by
        have := hfl
        omega
      simp [he, hlen2, List.take_left, List.drop_left]
  have hcore : ∀ neg : Bool, neg = decide (m < 0) →
      parseNumBody neg ((if e = 0 then ids ++ fds else ids ++ '.' :: fds) ++ rest)
        = some ((m, e), rest) := by
    intro neg hneg
    by_cases he : e = 0
    · subst he
      have hfds : fds = [] := List.eq_nil_of_length_eq_zero hfl
      subst hfds
      rw [if_pos rfl, List.append_nil]
      rw [parseNumBody_int neg ids rest hne hidig hlz hrest, hneg,
        mkNum_spec m 0 ids [] (by simpa using hval) rfl]
    · rw [if_neg he]
      have hfne : fds ≠ [] := by
        intro hf
        rw [hf] at hfl
        simp at hfl
        omega
      have hassoc : (ids ++ '.' :: fds) ++ rest = ids ++ '.' :: (fds ++ rest) := by simp
      rw [hassoc, parseNumBody_frac neg ids fds rest hne hfne hidig hfdig hlz hrest,
        hneg, mkNum_spec m e ids fds hval hfl]
  obtain ⟨c0, t0, hct⟩ : ∃ c0 t0, ids = c0 :: t0 := by
    cases h : ids with
    | nil => exact absurd h hne
    | cons c t => exact ⟨c, t, rfl⟩
  have hc0m : c0 ≠ '-' := digit_ne_minus c0 (hidig c0 (by rw [hct]; simp))
  by_cases hm : m < 0
  · rw [hbody, if_pos hm]
    show (if '-' = '-' then
        parseNumBody true ((if e = 0 then ids ++ fds else ids ++ '.' :: fds) ++ rest)
      else
        parseNumBody false
          ('-' :: ((if e = 0 then ids ++ fds else ids ++ '.' :: fds) ++ rest)))
      = some ((m, e), rest)
    rw [if_pos rfl]
    exact hcore true (by rw [decide_eq_true hm])
  · rw [hbody, if_neg hm, List.nil_append]
    have hshape : (if e = 0 then ids ++ fds else ids ++ '.' :: fds) ++ rest
        = c0 :: ((t0 ++ (if e = 0 then fds else '.' :: fds)) ++ rest) := by
      by_cases he : e = 0 <;> simp [he, hct]
    rw [hshape]
    show (if c0 = '-' then
        parseNumBody true ((t0 ++ (if e = 0 then fds else '.' :: fds)) ++ rest)
      else
        parseNumBody false (c0 :: ((t0 ++ (if e = 0 then fds else '.' :: fds)) ++ rest)))
      = some ((m, e), rest)
    rw [if_neg hc0m, ← hshape]
    exact hcore false (by rw [decide_eq_false hm])

/-! ## Whitespace and character-class facts -/

theorem digit_ne_of (c : Char) (h : isDigitC c = true) (d : Char)
    (hd : isDigitC d = false) : c ≠ d := by
  intro hc
  rw [hc] at h
  simp [h] at hd

theorem digit_not_space (c : Char) (h : isDigitC c = true) : isSpaceC c = false := by
  have h1 := digit_ne_of c h ' ' (by decide)
  have h2 := digit_ne_of c h '\t' (by decide)
  have h3 := digit_ne_of c h '\n' (by decide)
  have h4 := digit_ne_of c h '\r' (by decide)
  simp [isSpaceC, beq_eq_false_iff_ne.mpr h1, beq_eq_false_iff_ne.mpr h2,
    beq_eq_false_iff_ne.mpr h3, beq_eq_false_iff_ne.mpr h4]

theorem skipWs_nonspace (c : Char) (cs : List Char) (h : isSpaceC c = false) :
    skipWs (c :: cs) = c :: cs := by
  simp [skipWs, h]

theorem wsOnly_append (a b : List Char) : wsOnly (a ++ b) = (wsOnly a && wsOnly b) := by
  simp [wsOnly, List.all_append]

theorem wsOnly_indent (d : Nat) : wsOnly (indentChars d) = true := by
  simp only [wsOnly, indentChars, List.all_eq_true]
  intro c hc
  rw [List.eq_of_mem_replicate hc]
  rfl

theorem skipWs_spaces (pre : List Char) (h : wsOnly pre = true) :
    ∀ cs : List Char, skipWs (pre ++ cs) = skipWs cs := by
  induction pre with
  | nil => intro cs; rfl
  | cons c t ih =>
    intro cs
    have hct : (isSpaceC c && wsOnly t) = true := h
    rw [Bool.and_eq_true] at hct
    simp [skipWs, hct.1, ih hct.2 cs]

theorem valStop_numDelim (cs : List Char) (h : valStop cs = true) : numDelim cs = true := by
  cases cs with
  | nil => rfl
  | cons c t =>
    have hh : c = '\n' ∨ c = ',' := by simpa [valStop] using h
    rcases hh with hh | hh <;> rw [hh] <;> rfl


/-! ## String round-trip -/

theorem hexVal_hexDigitChar (d : Nat) (h : d < 16) : hexVal (hexDigitChar d) = some d := by
  interval_cases d <;> decide

theorem parseStrBody_step (fuel : Nat) (acc : List Char) (c : Char) (rest : List Char) :
    parseStrBody (fuel + 1) acc (escC c ++ rest) = parseStrBody fuel (c :: acc) rest := by
  by_cases hq : c = '"'
  · subst hq; simp [escC, parseStrBody, escSeq, escSimple]
  · by_cases hb : c = '\\'
    · subst hb; simp [escC, parseStrBody, escSeq, escSimple]
    · by_cases hn : c = '\n'
      · subst hn; simp [escC, parseStrBody, escSeq, escSimple]
      · by_cases hr : c = '\r'
        · subst hr; simp [escC, parseStrBody, escSeq, escSimple]
        · by_cases ht : c = '\t'
          · subst ht; simp [escC, parseStrBody, escSeq, escSimple]
          · by_cases h8 : c.toNat = 8
            · have hc8 : c = Char.ofNat 8 := by rw [← h8, Char.ofNat_toNat]
              rw [hc8]
              simp [escC, parseStrBody, escSeq, escSimple]
            · by_cases h12 : c.toNat = 12
              · have hc12 : c = Char.ofNat 12 := by rw [← h12, Char.ofNat_toNat]
                rw [hc12]
                simp [escC, parseStrBody, escSeq, escSimple]
              · by_cases h32 : c.toNat < 32
                · have hesc : escC c = ['\\', 'u', '0', '0',
                      hexDigitChar (c.toNat / 16), hexDigitChar (c.toNat % 16)] := by
                    unfold escC
                    rw [if_neg hq, if_neg hb, if_neg hn, if_neg hr, if_neg ht,
                      if_neg h8, if_neg h12, if_pos h32]
                  have hv0 : hexVal '0' = some 0 := by decide
                  have hv1 : hexVal (hexDigitChar (c.toNat / 16)) = some (c.toNat / 16) :=
                    hexVal_hexDigitChar _ (by omega)
                  have hv2 : hexVal (hexDigitChar (c.toNat % 16)) = some (c.toNat % 16) :=
                    hexVal_hexDigitChar _ (by omega)
                  have hhex : hex4 '0' '0' (hexDigitChar (c.toNat / 16))
                      (hexDigitChar (c.toNat % 16)) = some c.toNat := by
                    unfold hex4
                    rw [hv0, hv1, hv2]
                    have harith : ((0 * 16 + 0) * 16 + c.toNat / 16) * 16 + c.toNat % 16
                        = c.toNat := by omega
                    show some (((0 * 16 + 0) * 16 + c.toNat / 16) * 16 + c.toNat % 16)
                      = some c.toNat
                    rw [harith]
                  have h55 : c.toNat < 55296 := by omega
                  rw [hesc]
                  simp [parseStrBody, escSeq, escU, hhex, h55, Char.ofNat_toNat]
                · have hesc : escC c = [c] := by
                    unfold escC
                    rw [if_neg hq, if_neg hb, if_neg hn, if_neg hr, if_neg ht,
                      if_neg h8, if_neg h12, if_neg h32]
                  rw [hesc]
                  simp [parseStrBody, hq, hb, h32]

theorem escAll_length (s : List Char) : s.length ≤ (escAll s).length := by
  induction s with
  | nil => simp [escAll]
  | cons c t ih =>
    have h1 : 1 ≤ (escC c).length := by
      unfold escC
      split_ifs <;> simp
    simp only [escAll, List.length_append, List.length_cons]
    omega

theorem parseStrBody_escAll (s : List Char) :
    ∀ (fuel : Nat) (acc rest : List Char), s.length < fuel →
      parseStrBody fuel acc (escAll s ++ '"' :: rest)
        = some (String.mk (acc.reverse ++ s), rest) := by
  induction s with
  | nil =>
    intro fuel acc rest h
    cases fuel with
    | zero => omega
    | succ f => simp [escAll, parseStrBody]
  | cons c t ih =>
    intro fuel acc rest h
    cases fuel with
    | zero => omega
    | succ f =>
      have h1 : escAll (c :: t) ++ '"' :: rest = escC c ++ (escAll t ++ '"' :: rest) := by
        simp [escAll]
      rw [h1, parseStrBody_step, ih f (c :: acc) rest (by simp at h; omega)]
      simp

theorem parseStrBody_strChars (s : String) (rest : List Char) :
    parseStrBody ((escAll s.data ++ '"' :: rest).length + 1) []
      (escAll s.data ++ '"' :: rest) = some (s, rest) := by
  have hlen : s.data.length < (escAll s.data ++ '"' :: rest).length + 1 := by
    have := escAll_length s.data
    simp only [List.length_append, List.length_cons]
    omega
  rw [parseStrBody_escAll s.data _ [] rest hlen]
  simp

/-! ## Key order and member sorting -/

theorem sdata_inj (a b : String) (h : a.data = b.data) : a = b := congrArg String.mk h

theorem keyLt_conn : ∀ a b : List Char, keyLt a b = false → keyLt b a = true ∨ a = b
  | [], [] => fun _ => Or.inr rfl
  | [], _ :: _ => fun h => by simp [keyLt] at h
  | _ :: _, [] => fun _ => Or.inl rfl
  | x :: xs, y :: ys => fun h => by
    by_cases hxy : x < y
    · rw [keyLt, if_pos hxy] at h
      exact absurd h (by simp)
    · by_cases heq : x = y
      · rw [keyLt, if_neg hxy, if_pos heq] at h
        rcases keyLt_conn xs ys h with h2 | h2
        · left
          subst heq
          rw [keyLt, if_neg (lt_irrefl x), if_pos rfl]
          exact h2
        · right
          rw [heq, h2]
      · left
        have hyx : y < x := by
          rcases lt_trichotomy x y with h3 | h3 | h3
          · exact absurd h3 hxy
          · exact absurd h3 heq
          · exact h3
        rw [keyLt, if_pos hyx]

theorem keyLt_of_ne (a b : List Char) (hf : keyLt a b = false) (hne : a ≠ b) :
    keyLt b a = true := by
  rcases keyLt_conn a b hf with h | h
  · exact h
  · exact absurd h hne

theorem perm_insMember (kv : String × JVal) : ∀ l, (insMember kv l).Perm (kv :: l)
  | [] => by simp [insMember]
  | p :: ps => by
    rw [insMember]
    by_cases h : keyLt kv.1.data p.1.data
    · rw [if_pos h]
    · rw [if_neg h]
      exact ((perm_insMember kv ps).cons p).trans (List.Perm.swap kv p ps)

theorem perm_sortMembers : ∀ ms : List (String × JVal), (sortMembers ms).Perm ms
  | [] => List.Perm.refl []
  | m :: rest =>
    (perm_insMember m (sortMembers rest)).trans ((perm_sortMembers rest).cons m)

theorem any_perm {l l' : List α} (h : l.Perm l') (p : α → Bool) : l.any p = l'.any p := by
  rw [Bool.eq_iff_iff, List.any_eq_true, List.any_eq_true]
  constructor
  · rintro ⟨x, hx, hp⟩
    exact ⟨x, h.mem_iff.mp hx, hp⟩
  · rintro ⟨x, hx, hp⟩
    exact ⟨x, h.mem_iff.mpr hx, hp⟩

theorem keysSorted_insMember :
    ∀ l : List (String × JVal), keysSorted l = true →
      ∀ kv : String × JVal, (∀ p ∈ l, kv.1 ≠ p.1) → keysSorted (insMember kv l) = true
  | [] => fun _ kv _ => rfl
  | p :: ps => fun hs kv hd => by
    rw [insMember]
    by_cases h : keyLt kv.1.data p.1.data
    · rw [if_pos h]
      simp [keysSorted, h, hs]
    · rw [if_neg h]
      rw [Bool.not_eq_true] at h
      have hne : kv.1.data ≠ p.1.data := by
        intro he
        exact hd p (by simp) (sdata_inj _ _ he)
      have hpk : keyLt p.1.data kv.1.data = true := keyLt_of_ne _ _ h hne
      cases ps with
      | nil => simp [insMember, keysSorted, hpk]
      | cons q qs =>
        have hs' : keyLt p.1.data q.1.data = true ∧ keysSorted (q :: qs) = true := by
          rw [keysSorted] at hs
          rwa [Bool.and_eq_true] at hs
        rw [insMember]
        by_cases h2 : keyLt kv.1.data q.1.data
        · rw [if_pos h2]
          simp [keysSorted, hpk, h2, hs'.2]
        · rw [if_neg h2]
          have hrec := keysSorted_insMember (q :: qs) hs'.2 kv
            (fun p' hp' => hd p' (List.mem_cons_of_mem p hp'))
          rw [insMember, if_neg h2] at hrec
          simp [keysSorted, hs'.1, hrec]

theorem keysSorted_sortMembers :
    ∀ ms : List (String × JVal), keysNodup ms = true → keysSorted (sortMembers ms) = true
  | [] => fun _ => rfl
  | m :: rest => fun h => by
    have h' : (!(rest.any (fun q => q.1 == m.1)) && keysNodup rest) = true := h
    rw [Bool.and_eq_true] at h'
    have hany : rest.any (fun q => q.1 == m.1) = false := by simpa using h'.1
    have hd : ∀ p ∈ sortMembers rest, m.1 ≠ p.1 := by
      intro p hp he
      have hpmem : p ∈ rest := (perm_sortMembers rest).mem_iff.mp hp
      have hbeq : (fun q : String × JVal => q.1 == m.1) p = true := by simp [← he]
      have : rest.any (fun q => q.1 == m.1) = true := List.any_eq_true.mpr ⟨p, hpmem, hbeq⟩
      rw [this] at hany
      exact absurd hany (by simp)
    show keysSorted (insMember m (sortMembers rest)) = true
    exact keysSorted_insMember (sortMembers rest) (keysSorted_sortMembers rest h'.2) m hd

theorem keysNodup_iff (ms : List (String × JVal)) :
    keysNodup ms = true ↔ (ms.map Prod.fst).Nodup := by
  induction ms with
  | nil => simp [keysNodup]
  | cons p ps ih =>
    rw [keysNodup, Bool.and_eq_true]
    simp only [List.map_cons, List.nodup_cons]
    constructor
    · rintro ⟨h1, h2⟩
      refine ⟨?_, ih.mp h2⟩
      intro hmem
      rcases List.mem_map.mp hmem with ⟨q, hq, hqe⟩
      have : ps.any (fun q => q.1 == p.1) = true :=
        List.any_eq_true.mpr ⟨q, hq, by simp [hqe]⟩
      rw [this] at h1
      exact absurd h1 (by simp)
    · rintro ⟨h1, h2⟩
      refine ⟨?_, ih.mpr h2⟩
      have : ps.any (fun q => q.1 == p.1) = false := by
        cases hq : ps.any (fun q => q.1 == p.1) with
        | false => rfl
        | true =>
          rcases List.any_eq_true.mp hq with ⟨q, hqm, hqe⟩
          exact absurd (List.mem_map.mpr ⟨q, hqm, by simpa using hqe⟩) h1
      simp [this]

theorem canonM_map_fst : ∀ ms : List (String × JVal),
    (canonM ms).map Prod.fst = ms.map Prod.fst
  | [] => rfl
  | (k, v) :: ms => by simp [canonM, canonM_map_fst ms]

theorem canonM_hasKey (k : String) : ∀ ms : List (String × JVal),
    (canonM ms).any (fun p => p.1 == k) = ms.any (fun p => p.1 == k)
  | [] => rfl
  | (k2, v) :: ms => by simp [canonM, List.any_cons, canonM_hasKey k ms]

theorem jWFM_forall (ms : List (String × JVal)) :
    jWFM ms = true ↔ ∀ p ∈ ms, jWF p.2 = true := by
  induction ms with
  | nil => simp [jWFM]
  | cons p ps ih =>
    obtain ⟨k, v⟩ := p
    rw [jWFM, Bool.and_eq_true]
    simp only [List.mem_cons, ih]
    constructor
    · rintro ⟨h1, h2⟩ q hq
      rcases hq with hq | hq
      · rw [hq]
        exact h1
      · exact h2 q hq
    · intro h
      exact ⟨h (k, v) (Or.inl rfl), fun q hq => h q (Or.inr hq)⟩

theorem jCanonicalM_forall (ms : List (String × JVal)) :
    jCanonicalM ms = true ↔ ∀ p ∈ ms, jCanonical p.2 = true := by
  induction ms with
  | nil => simp [jCanonicalM]
  | cons p ps ih =>
    obtain ⟨k, v⟩ := p
    rw [jCanonicalM, Bool.and_eq_true]
    simp only [List.mem_cons, ih]
    constructor
    · rintro ⟨h1, h2⟩ q hq
      rcases hq with hq | hq
      · rw [hq]
        exact h1
      · exact h2 q hq
    · intro h
      exact ⟨h (k, v) (Or.inl rfl), fun q hq => h q (Or.inr hq)⟩

theorem jWFM_perm {l l' : List (String × JVal)} (h : l.Perm l') (hw : jWFM l = true) :
    jWFM l' = true :=
  (jWFM_forall l').mpr (fun p hp => (jWFM_forall l).mp hw p (h.mem_iff.mpr hp))

theorem jCanonicalM_perm {l l' : List (String × JVal)} (h : l.Perm l')
    (hw : jCanonicalM l = true) : jCanonicalM l' = true :=
  (jCanonicalM_forall l').mpr (fun p hp => (jCanonicalM_forall l).mp hw p (h.mem_iff.mpr hp))

theorem canonM_wf_entries : ∀ ms : List (String × JVal),
    (∀ p ∈ ms, jWF p.2 = true → jWF (canonJ p.2) = true) →
    jWFM ms = true → jWFM (canonM ms) = true
  | [], _, _ => rfl
  | (k, v) :: ms, hall, h => by
    have h' : (jWF v && jWFM ms) = true := h
    rw [Bool.and_eq_true] at h'
    show (jWF (canonJ v) && jWFM (canonM ms)) = true
    rw [Bool.and_eq_true]
    exact ⟨hall (k, v) (by simp) h'.1,
      canonM_wf_entries ms (fun p hp => hall p (by simp [hp])) h'.2⟩

theorem sortMembers_sorted_id :
    ∀ ms : List (String × JVal), keysSorted ms = true → sortMembers ms = ms
  | [] => fun _ => rfl
  | m :: rest => fun h => by
    show insMember m (sortMembers rest) = m :: rest
    cases rest with
    | nil => rfl
    | cons q qs =>
      have h' : keyLt m.1.data q.1.data = true ∧ keysSorted (q :: qs) = true := by
        rw [keysSorted] at h
        rwa [Bool.and_eq_true] at h
      rw [sortMembers_sorted_id (q :: qs) h'.2, insMember, if_pos h'.1]

mutual
theorem canonJ_wf : ∀ j : JVal, jWF j = true → jWF (canonJ j) = true
  | .jnull, _ => rfl
  | .jbool _, _ => rfl
  | .jnum _ _, _ => rfl
  | .jstr _, _ => rfl
  | .jarr xs, h => by
    rw [jWF] at h
    rw [canonJ, jWF]
    exact canonL_wf xs h
  | .jobj ms, h => by
    rw [jWF, Bool.and_eq_true] at h
    rw [canonJ, jWF, Bool.and_eq_true]
    constructor
    · rw [keysNodup_iff]
      have hperm := (perm_sortMembers (canonM ms)).map Prod.fst
      rw [hperm.nodup_iff, canonM_map_fst]
      exact (keysNodup_iff ms).mp h.1
    · exact jWFM_perm (perm_sortMembers (canonM ms)).symm (canonM_wf ms h.2)
theorem canonL_wf : ∀ xs : List JVal, jWFL xs = true → jWFL (canonL xs) = true
  | [], _ => rfl
  | x :: xs, h => by
    rw [jWFL, Bool.and_eq_true] at h
    rw [canonL, jWFL, Bool.and_eq_true]
    exact ⟨canonJ_wf x h.1, canonL_wf xs h.2⟩
theorem canonM_wf : ∀ ms : List (String × JVal), jWFM ms = true → jWFM (canonM ms) = true
  | [], _ => rfl
  | (k, v) :: ms, h => by
    rw [jWFM, Bool.and_eq_true] at h
    rw [canonM, jWFM, Bool.and_eq_true]
    exact ⟨canonJ_wf v h.1, canonM_wf ms h.2⟩
end

mutual
theorem canonJ_canonical : ∀ j : JVal, jWF j = true → jCanonical (canonJ j) = true
  | .jnull, _ => rfl
  | .jbool _, _ => rfl
  | .jnum _ _, _ => rfl
  | .jstr _, _ => rfl
  | .jarr xs, h => by
    rw [jWF] at h
    rw [canonJ, jCanonical]
    exact canonL_canonical xs h
  | .jobj ms, h => by
    rw [jWF, Bool.and_eq_true] at h
    rw [canonJ, jCanonical, Bool.and_eq_true]
    constructor
    · apply keysSorted_sortMembers
      rw [keysNodup_iff, canonM_map_fst]
      exact (keysNodup_iff ms).mp h.1
    · exact jCanonicalM_perm (perm_sortMembers (canonM ms)).symm (canonM_canonical ms h.2)
theorem canonL_canonical : ∀ xs : List JVal, jWFL xs = true → jCanonicalL (canonL xs) = true
  | [], _ => rfl
  | x :: xs, h => by
    rw [jWFL, Bool.and_eq_true] at h
    rw [canonL, jCanonicalL, Bool.and_eq_true]
    exact ⟨canonJ_canonical x h.1, canonL_canonical xs h.2⟩
theorem canonM_canonical :
    ∀ ms : List (String × JVal), jWFM ms = true → jCanonicalM (canonM ms) = true
  | [], _ => rfl
  | (k, v) :: ms, h => by
    rw [jWFM, Bool.and_eq_true] at h
    rw [canonM, jCanonicalM, Bool.and_eq_true]
    exact ⟨canonJ_canonical v h.1, canonM_canonical ms h.2⟩
end

mutual
theorem canonJ_id : ∀ j : JVal, jCanonical j = true → canonJ j = j
  | .jnull, _ => rfl
  | .jbool _, _ => rfl
  | .jnum _ _, _ => rfl
  | .jstr _, _ => rfl
  | .jarr xs, h => by
    rw [jCanonical] at h
    rw [canonJ, canonL_id xs h]
  | .jobj ms, h => by
    rw [jCanonical, Bool.and_eq_true] at h
    rw [canonJ, canonM_id ms h.2, sortMembers_sorted_id ms h.1]
theorem canonL_id : ∀ xs : List JVal, jCanonicalL xs = true → canonL xs = xs
  | [], _ => rfl
  | x :: xs, h => by
    rw [jCanonicalL, Bool.and_eq_true] at h
    rw [canonL, canonJ_id x h.1, canonL_id xs h.2]
theorem canonM_id : ∀ ms : List (String × JVal), jCanonicalM ms = true → canonM ms = ms
  | [], _ => rfl
  | (k, v) :: ms, h => by
    rw [jCanonicalM, Bool.and_eq_true] at h
    rw [canonM, canonJ_id v h.1, canonM_id ms h.2]
end

mutual
theorem jBEq_refl : ∀ j : JVal, jBEq j j = true
  | .jnull => rfl
  | .jbool b => by rw [jBEq]; simp
  | .jnum m e => by rw [jBEq]; simp
  | .jstr s => by rw [jBEq]; simp
  | .jarr xs => by rw [jBEq]; exact jBEqL_refl xs
  | .jobj ms => by rw [jBEq]; exact jBEqM_refl ms
theorem jBEqL_refl : ∀ xs : List JVal, jBEqL xs xs = true
  | [] => rfl
  | x :: xs => by
    rw [jBEqL, Bool.and_eq_true]
    exact ⟨jBEq_refl x, jBEqL_refl xs⟩
theorem jBEqM_refl : ∀ ms : List (String × JVal), jBEqM ms ms = true
  | [] => rfl
  | p :: ps => by
    rw [jBEqM]
    simp only [Bool.and_eq_true]
    exact ⟨⟨by simp, jBEq_refl p.2⟩, jBEqM_refl ps⟩
end

/-! ## Objects rebuilt by the parser -/

theorem jinsert_absent (ms : List (String × JVal)) (k : String) (v : JVal)
    (h : ms.any (fun p => p.1 == k) = false) : jinsert ms k v = ms ++ [(k, v)] := by
  unfold jinsert
  rw [if_neg (by simp [h])]

theorem dictify_go :
    ∀ ps acc : List (String × JVal),
      (∀ p ∈ ps, acc.any (fun q => q.1 == p.1) = false) → keysNodup ps = true →
      ps.foldl (fun d p => jinsert d p.1 p.2) acc = acc ++ ps
  | [], acc => fun _ _ => by simp
  | p :: ps, acc => fun hacc hnd => by
    obtain ⟨k, v⟩ := p
    rw [List.foldl_cons]
    show (ps.foldl (fun d p => jinsert d p.1 p.2) (jinsert acc k v)) = acc ++ (k, v) :: ps
    rw [jinsert_absent acc k v (hacc (k, v) (by simp))]
    have hnd' : (!(ps.any (fun q => q.1 == k)) && keysNodup ps) = true := hnd
    rw [Bool.and_eq_true] at hnd'
    have hair : ps.any (fun q => q.1 == k) = false := by simpa using hnd'.1
    have hacc' : ∀ q ∈ ps, (acc ++ [(k, v)]).any (fun r => r.1 == q.1) = false := by
      intro q hq
      rw [List.any_append]
      have h1 := hacc q (by simp [hq])
      have h2 : (k == q.1) = false := by
        have hq1 : (q.1 == k) = false := by
          cases hqk : (q.1 == k) with
          | false => rfl
          | true =>
            have hcontra : ps.any (fun r => r.1 == k) = true :=
              List.any_eq_true.mpr ⟨q, hq, hqk⟩
            exact absurd hcontra (by simp [hair])
        simp only [beq_eq_false_iff_ne] at hq1 ⊢
        exact fun he => hq1 he.symm
      simp [h1, h2]
    rw [dictify_go ps (acc ++ [(k, v)]) hacc' hnd'.2]
    simp

theorem dictify_nodup (ms : List (String × JVal)) (h : keysNodup ms = true) :
    dictify ms = ms := by
  have hgo := dictify_go ms [] (fun p _ => rfl) h
  simpa [dictify] using hgo

theorem jsetdefault_present (ms : List (String × JVal)) (k : String) (v : JVal)
    (h : ms.any (fun p => p.1 == k) = true) : jsetdefault ms k v = ms := by
  unfold jsetdefault
  rw [if_pos h]

/-! ## Shape of emitted output -/

theorem numChars_shape (m : Int) (e : Nat) :
    ∃ c t, numChars m e = c :: t ∧ (c = '-' ∨ isDigitC c = true) := by
  obtain ⟨ids, fds, hsplit, hfl, hne, hidig, hfdig, hlz, hval⟩ := padLeft_split m.natAbs e
  obtain ⟨c0, t0, hct⟩ : ∃ c0 t0, ids = c0 :: t0 := by
    cases h : ids with
    | nil => exact absurd h hne
    | cons c t => exact ⟨c, t, rfl⟩
  have hbody : numChars m e = (if m < 0 then ['-'] else []) ++
      (if e = 0 then ids ++ fds else ids ++ '.' :: fds) := by
    unfold numChars
    rw [natDigs_eq, hsplit]
    by_cases he : e = 0
    · simp [he]
    · have hlen2 : ids.length + fds.length - e = ids.length := by
        have := hfl
        omega
      simp [he, hlen2, List.take_left, List.drop_left]
  by_cases hm : m < 0
  · refine ⟨'-', (if e = 0 then ids ++ fds else ids ++ '.' :: fds), ?_, Or.inl rfl⟩
    rw [hbody, if_pos hm]
    simp
  · refine ⟨c0, (if e = 0 then t0 ++ fds else t0 ++ '.' :: fds), ?_,
      Or.inr (hidig c0 (by rw [hct]; simp))⟩
    rw [hbody, if_neg hm, List.nil_append, hct]
    by_cases he : e = 0 <;> simp [he]

theorem emitJ_head (d : Nat) (j : JVal) :
    ∃ c t, emitJ d j = c :: t ∧ isSpaceC c = false ∧ c ≠ ']' := by
  cases j with
  | jnull => exact ⟨'n', ['u', 'l', 'l'], by rw [emitJ], by decide, by decide⟩
  | jbool b =>
    cases b with
    | true => exact ⟨'t', ['r', 'u', 'e'], by rw [emitJ], by decide, by decide⟩
    | false => exact ⟨'f', ['a', 'l', 's', 'e'], by rw [emitJ], by decide, by decide⟩
  | jnum m e =>
    obtain ⟨c, t, hct, hc⟩ := numChars_shape m e
    refine ⟨c, t, by rw [emitJ, hct], ?_, ?_⟩
    · rcases hc with hc | hc
      · rw [hc]
        decide
      · exact digit_not_space c hc
    · rcases hc with hc | hc
      · rw [hc]
        decide
      · exact digit_ne_of c hc ']' (by decide)
  | jstr s =>
    exact ⟨'"', escAll s.data ++ ['"'], by rw [emitJ]; rfl, by decide, by decide⟩
  | jarr xs =>
    cases xs with
    | nil => exact ⟨'[', [']'], by rw [emitJ], by decide, by decide⟩
    | cons x xs =>
      exact ⟨'[', '\n' :: (indentChars (d + 1) ++ emitJ (d + 1) x ++ emitItems (d + 1) xs
        ++ '\n' :: (indentChars d ++ [']'])), by rw [emitJ], by decide, by decide⟩
  | jobj ms =>
    cases ms with
    | nil => exact ⟨braceL, [braceR], by rw [emitJ], by decide, by decide⟩
    | cons p ps =>
      exact ⟨braceL, '\n' :: (indentChars (d + 1) ++ strChars p.1 ++ ':' :: ' '
        :: emitJ (d + 1) p.2 ++ emitEntries (d + 1) ps ++ '\n' :: (indentChars d ++ [braceR])),
        by rw [emitJ], by decide, by decide⟩

theorem skipWs_emitJ (d : Nat) (j : JVal) (rest : List Char) :
    skipWs (emitJ d j ++ rest) = emitJ d j ++ rest := by
  obtain ⟨c, t, hct, hsp, _⟩ := emitJ_head d j
  rw [hct, List.cons_append]
  exact skipWs_nonspace c _ hsp

mutual
theorem emitJ_length : ∀ (j : JVal) (d : Nat), jsize j ≤ (emitJ d j).length
  | .jnull, d => by rw [emitJ, jsize]; simp
  | .jbool true, d => by rw [emitJ, jsize]; simp
  | .jbool false, d => by rw [emitJ, jsize]; simp
  | .jnum m e, d => by
    rw [emitJ, jsize]
    obtain ⟨c, t, hct, _⟩ := numChars_shape m e
    rw [hct]
    simp
  | .jstr s, d => by rw [emitJ, jsize]; simp [strChars]
  | .jarr [], d => by rw [emitJ, jsize, jsizeL]; simp
  | .jarr (x :: xs), d => by
    rw [emitJ, jsize, jsizeL]
    have h1 := emitJ_length x (d + 1)
    have h2 := emitItems_length xs (d + 1)
    simp only [List.length_cons, List.length_append]
    omega
  | .jobj [], d => by rw [emitJ, jsize, jsizeM]; simp
  | .jobj ((k, v) :: ps), d => by
    rw [emitJ, jsize, jsizeM]
    have h1 := emitJ_length v (d + 1)
    have h2 := emitEntries_length ps (d + 1)
    simp only [List.length_cons, List.length_append]
    omega
theorem emitItems_length : ∀ (xs : List JVal) (d : Nat), jsizeL xs ≤ (emitItems d xs).length
  | [], d => by rw [emitItems, jsizeL]; simp
  | x :: xs, d => by
    rw [emitItems, jsizeL]
    have h1 := emitJ_length x d
    have h2 := emitItems_length xs d
    simp only [List.length_cons, List.length_append]
    omega
theorem emitEntries_length :
    ∀ (ms : List (String × JVal)) (d : Nat), jsizeM ms ≤ (emitEntries d ms).length
  | [], d => by rw [emitEntries, jsizeM]; simp
  | (k, v) :: ps, d => by
    rw [emitEntries, jsizeM]
    have h1 := emitJ_length v d
    have h2 := emitEntries_length ps d
    simp only [List.length_cons, List.length_append]
    omega
end

/-! ## The emit–parse round trip -/

theorem jsize_pos (j : JVal) : 1 ≤ jsize j := by
  cases j <;> rw [jsize] <;> omega

theorem wsOnly_nl_indent (d : Nat) : wsOnly ('\n' :: indentChars d) = true := by
  have h := wsOnly_indent d
  show (isSpaceC '\n' && wsOnly (indentChars d)) = true
  rw [h]
  rfl

theorem valStop_nl (z : List Char) : valStop ('\n' :: z) = true := rfl

theorem valStop_comma (z : List Char) : valStop (',' :: z) = true := rfl

theorem skipWs_ws_emitJ (pre : List Char) (hpre : wsOnly pre = true) (d : Nat) (j : JVal)
    (rest : List Char) : skipWs (pre ++ (emitJ d j ++ rest)) = emitJ d j ++ rest := by
  rw [skipWs_spaces pre hpre, skipWs_emitJ]

theorem skipWs_nl_indent_emitJ (d2 dj : Nat) (j : JVal) (z : List Char) :
    skipWs ('\n' :: (indentChars d2 ++ (emitJ dj j ++ z))) = emitJ dj j ++ z := by
  have h1 : '\n' :: (indentChars d2 ++ (emitJ dj j ++ z))
      = ('\n' :: indentChars d2) ++ (emitJ dj j ++ z) := by simp
  rw [h1, skipWs_spaces _ (wsOnly_nl_indent d2), skipWs_emitJ]

theorem skipWs_nl_indent_close (d2 : Nat) (c : Char) (hc : isSpaceC c = false)
    (z : List Char) : skipWs ('\n' :: (indentChars d2 ++ (c :: z))) = c :: z := by
  have h1 : '\n' :: (indentChars d2 ++ (c :: z)) = ('\n' :: indentChars d2) ++ (c :: z) := by
    simp
  rw [h1, skipWs_spaces _ (wsOnly_nl_indent d2), skipWs_nonspace _ _ hc]

theorem skipWs_nl_indent_str (d2 : Nat) (k : String) (z : List Char) :
    skipWs ('\n' :: (indentChars d2 ++ (strChars k ++ z))) = strChars k ++ z := by
  have h1 : '\n' :: (indentChars d2 ++ (strChars k ++ z))
      = ('\n' :: indentChars d2) ++ (strChars k ++ z) := by simp
  rw [h1, skipWs_spaces _ (wsOnly_nl_indent d2), strChars, List.cons_append,
    skipWs_nonspace _ _ (by decide)]

theorem rt_main : ∀ fuel : Nat,
    (∀ (j : JVal) (d : Nat) (pre rest : List Char), jWF j = true → wsOnly pre = true →
      valStop rest = true → jsize j ≤ fuel →
      parseVal fuel (pre ++ (emitJ d j ++ rest)) = some (j, rest)) ∧
    (∀ (x : JVal) (xs : List JVal) (d d' : Nat) (pre rest : List Char), jWF x = true →
      jWFL xs = true → wsOnly pre = true → 1 + jsize x + jsizeL xs ≤ fuel →
      parseItems fuel (pre ++ (emitJ d x ++ (emitItems d xs
        ++ '\n' :: (indentChars d' ++ ']' :: rest)))) = some (x :: xs, rest)) ∧
    (∀ (k : String) (v : JVal) (ms : List (String × JVal)) (d d' : Nat)
      (pre rest : List Char), jWF v = true → jWFM ms = true → wsOnly pre = true →
      1 + jsize v + jsizeM ms ≤ fuel →
      parseEntries fuel (pre ++ (strChars k ++ ':' :: ' ' :: (emitJ d v ++ (emitEntries d ms
        ++ '\n' :: (indentChars d' ++ braceR :: rest))))) = some ((k, v) :: ms, rest)) := by
  intro fuel
  induction fuel with
  | zero =>
    refine ⟨?_, ?_, ?_⟩
    · intro j d pre rest _ _ _ hsz
      have := jsize_pos j
      omega
    · intro x xs d d' pre rest _ _ _ hsz
      omega
    · intro k v ms d d' pre rest _ _ _ hsz
      omega
  | succ f ih =>
    obtain ⟨pv, pi, pe⟩ := ih
    refine ⟨?_, ?_, ?_⟩
    · -- one value
      intro j d pre rest hwf hpre hrest hsz
      rw [parseVal, skipWs_ws_emitJ pre hpre d j rest]
      cases j with
      | jnull =>
        rw [emitJ]
        simp
      | jbool b =>
        cases b with
        | true =>
          rw [emitJ]
          simp
        | false =>
          rw [emitJ]
          simp
      | jnum m e =>
        rw [emitJ]
        obtain ⟨c, t, hct, hc⟩ := numChars_shape m e
        rw [hct, List.cons_append]
        have hne6 : c ≠ 'n' ∧ c ≠ 't' ∧ c ≠ 'f' ∧ c ≠ '"' ∧ c ≠ '[' ∧ c ≠ braceL := by
          rcases hc with hc | hc
          · rw [hc]
            exact ⟨by decide, by decide, by decide, by decide, by decide, by decide⟩
          · exact ⟨digit_ne_of c hc 'n' (by decide), digit_ne_of c hc 't' (by decide),
              digit_ne_of c hc 'f' (by decide), digit_ne_of c hc '"' (by decide),
              digit_ne_of c hc '[' (by decide), digit_ne_of c hc braceL (by decide)⟩
        obtain ⟨h1, h2, h3, h4, h5, h6⟩ := hne6
        simp only [if_neg h1, if_neg h2, if_neg h3, if_neg h4, if_neg h5, if_neg h6]
        rw [if_pos hc]
        have hpn : parseNumber (c :: (t ++ rest)) = some ((m, e), rest) := by
          rw [← List.cons_append, ← hct]
          exact parseNumber_numChars m e rest (valStop_numDelim rest hrest)
        rw [hpn]
      | jstr s =>
        rw [emitJ, strChars]
        simp only [List.cons_append, List.append_assoc, List.singleton_append,
          List.nil_append]
        rw [parseStrBody_strChars s rest]
        simp
      | jarr xs =>
        cases xs with
        | nil =>
          rw [emitJ]
          simp only [List.cons_append, List.nil_append]
          have hsw : skipWs (']' :: rest) = ']' :: rest := skipWs_nonspace _ _ (by decide)
          simp [hsw]
        | cons x xs =>
          rw [jWF, jWFL, Bool.and_eq_true] at hwf
          rw [jsize, jsizeL] at hsz
          rw [emitJ]
          simp only [List.cons_append, List.append_assoc, List.singleton_append,
            List.nil_append]
          have hsw := skipWs_nl_indent_emitJ (d + 1) (d + 1) x
            (emitItems (d + 1) xs ++ '\n' :: (indentChars d ++ ']' :: rest))
          simp only [hsw]
          obtain ⟨c2, t2, hct2, hsp2, hne2⟩ := emitJ_head (d + 1) x
          have hQ := pi x xs (d + 1) d [] rest hwf.1 hwf.2 rfl (by omega)
          rw [List.nil_append] at hQ
          rw [hct2, List.cons_append] at hQ
          rw [hct2, List.cons_append]
          simp [hne2, hQ]
      | jobj ms =>
        cases ms with
        | nil =>
          rw [emitJ]
          simp only [List.cons_append, List.nil_append]
          have hsw : skipWs (braceR :: rest) = braceR :: rest :=
            skipWs_nonspace _ _ (by decide)
          have hb1 : ¬ braceL = 'n' := by decide
          have hb2 : ¬ braceL = 't' := by decide
          have hb3 : ¬ braceL = 'f' := by decide
          have hb4 : ¬ braceL = '"' := by decide
          have hb5 : ¬ braceL = '[' := by decide
          simp [hsw, hb1, hb2, hb3, hb4, hb5]
        | cons p ps =>
          obtain ⟨k, v⟩ := p
          rw [jWF, Bool.and_eq_true] at hwf
          obtain ⟨hnd, hms⟩ := hwf
          rw [jWFM, Bool.and_eq_true] at hms
          rw [jsize, jsizeM] at hsz
          rw [emitJ]
          simp only [List.cons_append, List.append_assoc, List.singleton_append,
            List.nil_append]
          have hsw := skipWs_nl_indent_str (d + 1) k
            (':' :: ' ' :: (emitJ (d + 1) v ++ (emitEntries (d + 1) ps
              ++ '\n' :: (indentChars d ++ braceR :: rest))))
          simp only [List.cons_append, List.append_assoc, List.nil_append] at hsw
          simp only [hsw]
          have hR := pe k v ps (d + 1) d [] rest hms.1 hms.2 rfl (by omega)
          rw [List.nil_append] at hR
          rw [strChars] at hR
          simp only [List.cons_append, List.append_assoc, List.singleton_append,
            List.nil_append] at hR
          rw [strChars]
          simp only [List.cons_append, List.append_assoc, List.singleton_append,
            List.nil_append]
          have hb1 : ¬ braceL = 'n' := by decide
          have hb2 : ¬ braceL = 't' := by decide
          have hb3 : ¬ braceL = 'f' := by decide
          have hb4 : ¬ braceL = '"' := by decide
          have hb5 : ¬ braceL = '[' := by decide
          have hb6 : ¬ ('"' : Char) = braceR := by decide
          simp [hb1, hb2, hb3, hb4, hb5, hb6, hR, dictify_nodup ((k, v) :: ps) hnd]
    · -- items of a non-empty array
      intro x xs d d' pre rest hx hxs hpre hsz
      rw [parseItems]
      have hvs : valStop (emitItems d xs ++ '\n' :: (indentChars d' ++ ']' :: rest)) = true := by
        cases xs with
        | nil => rw [emitItems, List.nil_append]; exact valStop_nl _
        | cons y ys => rw [emitItems, List.cons_append]; exact valStop_comma _
      have h1 := pv x d pre (emitItems d xs ++ '\n' :: (indentChars d' ++ ']' :: rest))
        hx hpre hvs (by omega)
      rw [h1]
      cases xs with
      | nil =>
        rw [emitItems, List.nil_append]
        have hsw := skipWs_nl_indent_close d' ']' (by decide) rest
        simp [hsw]
      | cons y ys =>
        rw [jWFL, Bool.and_eq_true] at hxs
        rw [jsizeL] at hsz
        rw [emitItems]
        simp only [List.cons_append, List.append_assoc]
        have hsw : skipWs (',' :: ('\n' :: (indentChars d ++ (emitJ d y
            ++ (emitItems d ys ++ '\n' :: (indentChars d' ++ ']' :: rest))))))
            = ',' :: ('\n' :: (indentChars d ++ (emitJ d y
              ++ (emitItems d ys ++ '\n' :: (indentChars d' ++ ']' :: rest))))) :=
          skipWs_nonspace _ _ (by decide)
        have hQ := pi y ys d d' ('\n' :: indentChars d) rest hxs.1 hxs.2
          (wsOnly_nl_indent d) (by have := jsize_pos x; omega)
        simp only [List.cons_append, List.append_assoc, List.nil_append] at hQ
        simp [hsw, hQ]
    · -- entries of a non-empty object
      intro k v ms d d' pre rest hv hms hpre hsz
      rw [parseEntries]
      have hsw1 : skipWs (pre ++ (strChars k ++ ':' :: ' ' :: (emitJ d v
          ++ (emitEntries d ms ++ '\n' :: (indentChars d' ++ braceR :: rest)))))
          = strChars k ++ ':' :: ' ' :: (emitJ d v
            ++ (emitEntries d ms ++ '\n' :: (indentChars d' ++ braceR :: rest))) := by
        rw [skipWs_spaces pre hpre, strChars, List.cons_append,
          skipWs_nonspace _ _ (by decide)]
      rw [hsw1, strChars, List.cons_append]
      simp only [List.cons_append, List.append_assoc, List.singleton_append,
        List.nil_append]
      rw [if_pos trivial]
      rw [parseStrBody_strChars k (':' :: ' ' :: (emitJ d v
        ++ (emitEntries d ms ++ '\n' :: (indentChars d' ++ braceR :: rest))))]
      have hsw2 : skipWs (':' :: ' ' :: (emitJ d v
          ++ (emitEntries d ms ++ '\n' :: (indentChars d' ++ braceR :: rest))))
          = ':' :: ' ' :: (emitJ d v
            ++ (emitEntries d ms ++ '\n' :: (indentChars d' ++ braceR :: rest))) :=
        skipWs_nonspace _ _ (by decide)
      simp only [hsw2]
      have hvs : valStop (emitEntries d ms ++ '\n' :: (indentChars d' ++ braceR :: rest))
          = true := by
        cases ms with
        | nil => rw [emitEntries, List.nil_append]; exact valStop_nl _
        | cons q qs => rw [emitEntries, List.cons_append]; exact valStop_comma _
      have h1 := pv v d [' '] (emitEntries d ms ++ '\n' :: (indentChars d' ++ braceR :: rest))
        hv rfl hvs (by omega)
      simp only [List.cons_append, List.nil_append] at h1
      rw [h1]
      cases ms with
      | nil =>
        rw [emitEntries, List.nil_append]
        have hsw := skipWs_nl_indent_close d' braceR (by decide) rest
        have hbc : ¬ braceR = ',' := by decide
        simp [hsw, hbc]
      | cons q qs =>
        obtain ⟨k2, v2⟩ := q
        rw [jWFM, Bool.and_eq_true] at hms
        rw [jsizeM] at hsz
        rw [emitEntries]
        simp only [List.cons_append, List.append_assoc]
        have hsw : skipWs (',' :: ('\n' :: (indentChars d ++ (strChars k2
            ++ ':' :: ' ' :: (emitJ d v2 ++ (emitEntries d qs
              ++ '\n' :: (indentChars d' ++ braceR :: rest)))))))
            = ',' :: ('\n' :: (indentChars d ++ (strChars k2
              ++ ':' :: ' ' :: (emitJ d v2 ++ (emitEntries d qs
                ++ '\n' :: (indentChars d' ++ braceR :: rest)))))) :=
          skipWs_nonspace _ _ (by decide)
        have hR := pe k2 v2 qs d d' ('\n' :: indentChars d) rest hms.1 hms.2
          (wsOnly_nl_indent d) (by have := jsize_pos v; omega)
        simp only [List.cons_append, List.append_assoc, List.nil_append] at hR
        simp [hsw, hR]

theorem json_loads_emit (j : JVal) (hwf : jWF j = true) :
    json_loads (String.mk (emitJ 0 j)) = some j := by
  unfold json_loads
  have hP := (rt_main ((emitJ 0 j).length + 1)).1 j 0 [] [] hwf rfl rfl
    (by have := emitJ_length j 0; omega)
  simp only [List.nil_append, List.append_nil] at hP
  show (match parseVal ((emitJ 0 j).length + 1) (emitJ 0 j) with
    | some (v, rest) => if wsOnly rest then some v else none
    | none => none) = some j
  rw [hP]
  rfl

/-- C5: round-trip persistence. Writing any well-formed registry document
(an object carrying the `meta` and `devices` keys, as every registry the
program holds does) with `atomic_write_json` and loading it back with
`load_registry` yields a document deep-equal to the one written: the same
keys and the same field values at every level, key order ignored. -/
theorem registry_roundtrip (j : JVal) (now_iso : String)
    (hwf : jWF j = true) (hobj : jIsObj j = true)
    (hmeta : jHasKey j "meta" = true) (hdev : jHasKey j "devices" = true) :
    jeqv (load_registry (some (atomic_write_json j)) now_iso) j = true := by
  cases j with
  | jnull => simp [jIsObj] at hobj
  | jbool b => simp [jIsObj] at hobj
  | jnum m e => simp [jIsObj] at hobj
  | jstr s => simp [jIsObj] at hobj
  | jarr xs => simp [jIsObj] at hobj
  | jobj ms =>
    have hwfc : jWF (canonJ (.jobj ms)) = true := canonJ_wf _ hwf
    have hcanc : jCanonical (canonJ (.jobj ms)) = true := canonJ_canonical _ hwf
    rw [jHasKey] at hmeta hdev
    have hnotws : wsOnly (emitJ 0 (canonJ (.jobj ms))) = false := by
      obtain ⟨c, t, hct, hsp, _⟩ := emitJ_head 0 (canonJ (.jobj ms))
      rw [hct]
      show (isSpaceC c && wsOnly t) = false
      rw [hsp]
      rfl
    have hnotws' : wsOnly (String.mk (emitJ 0 (canonJ (.jobj ms)))).data = false := hnotws
    have hjson : json_loads (String.mk (emitJ 0 (canonJ (.jobj ms))))
        = some (canonJ (.jobj ms)) := json_loads_emit (canonJ (.jobj ms)) hwfc
    have hm1 : (sortMembers (canonM ms)).any (fun p => p.1 == "meta") = true := by
      rw [any_perm (perm_sortMembers (canonM ms)), canonM_hasKey]
      exact hmeta
    have hd1 : (sortMembers (canonM ms)).any (fun p => p.1 == "devices") = true := by
      rw [any_perm (perm_sortMembers (canonM ms)), canonM_hasKey]
      exact hdev
    have hload : load_registry (some (atomic_write_json (.jobj ms))) now_iso
        = canonJ (.jobj ms) := by
      rw [atomic_write_json]
      show (if wsOnly (String.mk (emitJ 0 (canonJ (.jobj ms)))).data = true then
          fresh_registry now_iso
        else
          match json_loads (String.mk (emitJ 0 (canonJ (.jobj ms)))) with
          | some (.jobj ms2) => JVal.jobj (jsetdefault (jsetdefault ms2 "meta" (.jobj []))
              "devices" (.jobj []))
          | some _ => fresh_registry now_iso
          | none => fresh_registry now_iso) = canonJ (.jobj ms)
      rw [if_neg (by simp [hnotws'])]
      rw [hjson, canonJ]
      show JVal.jobj (jsetdefault (jsetdefault (sortMembers (canonM ms)) "meta" (.jobj []))
        "devices" (.jobj [])) = .jobj (sortMembers (canonM ms))
      rw [jsetdefault_present _ _ _ hm1, jsetdefault_present _ _ _ hd1]
    rw [hload]
    unfold jeqv
    rw [canonJ_id _ hcanc]
    exact jBEq_refl _

theorem registry_roundtrip_witness :
    jWF sampleReg = true ∧ jIsObj sampleReg = true ∧ jHasKey sampleReg "meta" = true ∧
      jHasKey sampleReg "devices" = true ∧
      jeqv (load_registry (some (atomic_write_json sampleReg)) "2024-01-02T00:00:00+00:00")
        sampleReg = true :=
  ⟨by decide, by decide, by decide, by decide,
    registry_roundtrip sampleReg "2024-01-02T00:00:00+00:00" (by decide) (by decide)
      (by decide) (by decide)⟩
